import Mathlib

/-!
# Phylustrator — tree layout and time-interpolation engine, shallowly embedded

This file embeds the layout / interpolation core of the Phylustrator
repository (files `src/phylustrator/drawing/base.py`,
`src/phylustrator/drawing/radial.py`, `src/phylustrator/drawing/vertical.py`,
the legacy `src/phylustrator/drawing.py`, and `src/phylustrator/utils.py`)
and proves properties of it.

Modelling conventions:
* Python floats are modelled as rationals (`ℚ`); the float literal `1e-12`
  is modelled as `1 / 10 ^ 12`, `0.5` as `1 / 2`.
* An ete3 `TreeNode` is a rose tree.  The dynamic attributes that the layout
  passes attach at runtime (`dist_to_root`, `rad`, `angle`, `y_coord`,
  `coordinates`, and the parser-provided `time_from_origin`) are `Option ℚ`
  slots, `none` while unset.  Reading such an attribute is modelled with
  `Option.getD`; the source instead lazily triggers `_calculate_layout` when
  an attribute is missing, so in every theorem below the attributes have
  already been written and the default is never read.
* A node's `up` (parent back-reference) is modelled by passing the parent
  explicitly as an `Option PNode` (functions that read `node.up` take the
  pair; `preorder_with_parent` enumerates the actual parent/child pairs of a
  tree).
* `polar_to_cartesian` applies `cos`/`sin` to the polar pair `(angle, rad)`;
  the radial drawer's geometry is therefore stated on the polar pairs the
  source code computes and then hands to `polar_to_cartesian`: equal polar
  pairs yield equal rendered cartesian points.
* ete3's `get_leaves` enumerates the leaves in preorder (depth-first,
  left-to-right); `traverse()` with no argument visits every node exactly
  once (the source only uses it to write per-node attributes and to build
  the name→node dictionary).
-/

namespace Phylustrator

/-- Style configuration, mirroring the `TreeStyle` dataclasses of
`drawing/base.py` and `drawing.py` (fields relevant to layout).  `margin` is
read by `VerticalTreeDrawer._calculate_layout` from a style revision whose
base module is not part of the sources; it is a plain style parameter
(spec: margins). -/
structure TreeStyle where
  width : ℚ := 1000
  height : ℚ := 1000
  radius : ℚ := 400
  degrees : ℚ := 360
  rotation : ℚ := -90
  margin : ℚ := 50
deriving Repr, DecidableEq

/-- The per-node attributes of an ete3 `TreeNode` as the engine sees them:
the static fields `name` and `dist` (branch length to the parent; for the
root this is the stem), the parser-provided `time_from_origin`, and the
slots written by the layout passes. -/
structure NData where
  name : String := ""
  dist : ℚ := 0
  timeFromOrigin : Option ℚ := none
  distToRoot : Option ℚ := none
  rad : Option ℚ := none
  angle : Option ℚ := none
  yCoord : Option ℚ := none
  coords : Option (ℚ × ℚ) := none
deriving Repr, DecidableEq

/-- An ete3 tree: node data plus the ordered list of children. -/
inductive PNode : Type where
  | mk : NData → List PNode → PNode

def PNode.data : PNode → NData
  | .mk d _ => d

def PNode.children : PNode → List PNode
  | .mk _ cs => cs

/-- Model of `TreeNode.is_leaf()`: no children. -/
def PNode.is_leaf (n : PNode) : Bool := n.children.isEmpty

/-- Read `node.dist_to_root` (written by pass 1 of every layout). -/
def PNode.distToRootD (n : PNode) : ℚ := (n.data.distToRoot).getD 0

/-- Read `node.rad` (written by the radial layout). -/
def PNode.radD (n : PNode) : ℚ := (n.data.rad).getD 0

/-- Read `node.angle` (written by the radial layout). -/
def PNode.angleD (n : PNode) : ℚ := (n.data.angle).getD 0

/-- Read `node.y_coord` (written by the vertical layout). -/
def PNode.yCoordD (n : PNode) : ℚ := (n.data.yCoord).getD 0

/-- Read `node.coordinates` (written by the vertical layout). -/
def PNode.coordsD (n : PNode) : ℚ × ℚ := (n.data.coords).getD (0, 0)

/-- Model of `RadialTreeDrawer._rot_ang`: apply the global rotation offset. -/
def rot_ang (rotation angDeg : ℚ) : ℚ := angDeg + rotation

/-- Model of `RadialTreeDrawer._node_xy` up to the final `polar_to_cartesian`
conversion: the polar pair `(rotated angle, rad)` the source converts. -/
def radial_node_polar (rotation : ℚ) (n : PNode) : ℚ × ℚ :=
  (rot_ang rotation n.angleD, n.radD)

/-- Model of `RadialTreeDrawer._edge_point`, with the cartesian result kept as the
polar pair the source feeds to `polar_to_cartesian`.  Result:
`((angle, radius), tangent angle)`.  On a parentless node (the root) the
source returns the node's own position and rotated angle; otherwise it
clamps `where` to `[0,1]` and interpolates the radius between the parent's
and the child's radius at the child's (rotated) angle. -/
def radial_edge_point (rotation : ℚ) (parent : Option PNode) (child : PNode)
    (whereFrac : ℚ) : (ℚ × ℚ) × ℚ :=
  match parent with
  | none => (radial_node_polar rotation child, rot_ang rotation child.angleD)
  | some p =>
    let r_p := p.radD
    let r_c := child.radD
    let t := max 0 (min 1 whereFrac)
    let r := r_p + (r_c - r_p) * t
    let ang := rot_ang rotation child.angleD
    ((ang, r), ang)

/-- Model of `VerticalTreeDrawer._edge_point`: a point on the horizontal leg of the
elbow (parent x → child x, at the child's y).  Result `((x, y), tangent)`.
On a parentless node the source returns the node's own coordinates and
tangent `0.0`. -/
def vertical_edge_point (parent : Option PNode) (child : PNode)
    (whereFrac : ℚ) : (ℚ × ℚ) × ℚ :=
  match parent with
  | none => (child.coordsD, 0)
  | some p =>
    let x_p := p.coordsD.1
    let x_c := child.coordsD.1
    let y_c := child.coordsD.2
    let t := max 0 (min 1 whereFrac)
    ((x_p + (x_c - x_p) * t, y_c), if x_c - x_p ≥ 0 then 0 else 180)

/-- Model of `BaseDrawer._where_from_time`: map an absolute event time to a `[0,1]`
position along the incoming edge of `node`.  The root yields `0.0`; the
parent's `time_from_origin` defaults to `0.0`, the node's to the parent's
value; the denominator is guarded against near-zero edges (fallback `1.0`)
and the quotient is clamped into `[0,1]`. -/
def where_from_time (parent : Option PNode) (node : PNode) (t : ℚ) : ℚ :=
  match parent with
  | none => 0
  | some p =>
    let t0 := (p.data.timeFromOrigin).getD 0
    let t1 := (node.data.timeFromOrigin).getD t0
    let denom := if |t1 - t0| > 1 / 10 ^ 12 then t1 - t0 else 1
    let w := (t - t0) / denom
    if w < 0 then 0 else if w > 1 then 1 else w

/-- The local `get_where` defined (identically) inside
`RadialTreeDrawer.plot_transfers` and `VerticalTreeDrawer.plot_transfers`:
root yields `0.0`; both endpoints' `time_from_origin` default to `0.0`; on a
non-degenerate edge the clamped quotient, on a near-zero edge `0.5`. -/
def get_where (parent : Option PNode) (node : PNode) (t_ev : ℚ) : ℚ :=
  match parent with
  | none => 0
  | some p =>
    let t0 := (p.data.timeFromOrigin).getD 0
    let t1 := (node.data.timeFromOrigin).getD 0
    if |t1 - t0| > 1 / 10 ^ 12 then
      max 0 (min 1 ((t_ev - t0) / (t1 - t0)))
    else (1 : ℚ) / 2

/-! ## Traversals -/

mutual
/-- Depth-first, left-to-right enumeration of all nodes
(`traverse("preorder")`). -/
def preorder : PNode → List PNode
  | .mk d cs => .mk d cs :: preorder_list cs
def preorder_list : List PNode → List PNode
  | [] => []
  | c :: rest => preorder c ++ preorder_list rest
end

mutual
/-- Preorder enumeration of `(node.up, node)` pairs, making the ete3 parent
back-reference explicit; the root is paired with `none`. -/
def preorder_with_parent (p : Option PNode) : PNode → List (Option PNode × PNode)
  | .mk d cs => (p, .mk d cs) :: preorder_with_parent_list (some (.mk d cs)) cs
def preorder_with_parent_list (p : Option PNode) :
    List PNode → List (Option PNode × PNode)
  | [] => []
  | c :: rest => preorder_with_parent p c ++ preorder_with_parent_list p rest
end

mutual
/-- ete3 `get_leaves()`: the leaves in depth-first left-to-right order
(a childless root is its own single leaf). -/
def get_leaves : PNode → List PNode
  | .mk d cs => if cs.isEmpty then [.mk d cs] else get_leaves_list cs
def get_leaves_list : List PNode → List PNode
  | [] => []
  | c :: rest => get_leaves c ++ get_leaves_list rest
end

/-! ## Layout passes (shared pass 1, then per-projection passes)

`RadialTreeDrawer._calculate_layout` and
`VerticalTreeDrawer._calculate_layout` both start with the same preorder
depth pass `n.dist_to_root = n.up.dist_to_root + n.dist if not n.is_root()
else getattr(n, "dist", 0.0)`; the legacy
`RadialTreeDrawer._calculate_coordinates` of `drawing.py` (lines 195–204)
computes the identical recurrence.  The running `max_dist` accumulator
(initialised to `0.0` and folded over the same preorder visit) is
`max_dist` below. -/

mutual
/-- Pass 1 (depth accumulation); `p` is the parent's `dist_to_root`
(`none` at the root, which starts from its own `dist`, the stem). -/
def write_dist_to_root (p : Option ℚ) : PNode → PNode
  | .mk d cs =>
    let dtr := match p with
      | none => d.dist
      | some v => v + d.dist
    .mk { d with distToRoot := some dtr } (write_dist_to_root_list (some dtr) cs)
def write_dist_to_root_list (p : Option ℚ) : List PNode → List PNode
  | [] => []
  | c :: rest => write_dist_to_root p c :: write_dist_to_root_list p rest
end

/-- Model of the running maximum of `dist_to_root` over the preorder
visit, initialised to `0.0`.  Applied to the result of pass 1. -/
def max_dist (t : PNode) : ℚ :=
  ((preorder t).map PNode.distToRootD).foldl max 0

mutual
/-- Radial pass: `for n in self.t.traverse(): n.rad = n.dist_to_root * self.sf`
(the visit order is irrelevant: each node is written once from its own
`dist_to_root`). -/
def write_rad (sf : ℚ) : PNode → PNode
  | .mk d cs =>
    .mk { d with rad := some ((d.distToRoot).getD 0 * sf) } (write_rad_list sf cs)
def write_rad_list (sf : ℚ) : List PNode → List PNode
  | [] => []
  | c :: rest => write_rad sf c :: write_rad_list sf rest
end

mutual
/-- Angular pass over the leaves: `for i, leaf in enumerate(leaves):
leaf.angle = i * angle_step`, functionalised by threading the enumeration
index `i` through the depth-first left-to-right leaf order. -/
def write_leaf_angles (step : ℚ) (i : ℕ) : PNode → ℕ × PNode
  | .mk d cs =>
    if cs.isEmpty then (i + 1, .mk { d with angle := some ((i : ℚ) * step) } cs)
    else
      let r := write_leaf_angles_list step i cs
      (r.1, .mk d r.2)
def write_leaf_angles_list (step : ℚ) (i : ℕ) : List PNode → ℕ × List PNode
  | [] => (i, [])
  | c :: rest =>
    let rc := write_leaf_angles step i c
    let rr := write_leaf_angles_list step rc.1 rest
    (rr.1, rc.2 :: rr.2)
end

mutual
/-- Internal centering (postorder): every non-leaf node's angle is the
arithmetic mean of its children's angles, the children having been
processed first.  The source's dead `else: n.angle = 0.0` branch (a
non-leaf with an empty children list) is unreachable, since `is_leaf()`
means exactly "no children". -/
def write_internal_angles : PNode → PNode
  | .mk d cs =>
    if cs.isEmpty then .mk d cs
    else
      let cs' := write_internal_angles_list cs
      .mk { d with angle := some ((cs'.map PNode.angleD).sum / (cs'.length : ℚ)) } cs'
def write_internal_angles_list : List PNode → List PNode
  | [] => []
  | c :: rest => write_internal_angles c :: write_internal_angles_list rest
end

/-- Model of `RadialTreeDrawer._calculate_layout` (drawing/radial.py, lines 54–85):
depth pass, scale factor (`1.0` fallback when `max_dist` is not positive),
radius pass, leaf angles at `span / max(len(leaves), 1)`, internal
centering.  Returns the decorated tree together with `self.sf` and
`self.total_tree_depth`. -/
def radial_calculate_layout (style : TreeStyle) (t : PNode) : PNode × ℚ × ℚ :=
  let t1 := write_dist_to_root none t
  let md := max_dist t1
  let sf := if md > 0 then style.radius / md else 1
  let t2 := write_rad sf t1
  let leavesN := (get_leaves t2).length
  let step := style.degrees / ((max leavesN 1 : ℕ) : ℚ)
  let t3 := (write_leaf_angles step 0 t2).2
  let t4 := write_internal_angles t3
  (t4, sf, md)

mutual
/-- Vertical leaf pass: `leaf.y_coord = start_y + (i * y_step)` and
`leaf.coordinates = (root_x + leaf.dist_to_root * sf, leaf.y_coord)`,
with the enumeration index `i` threaded through the leaf order. -/
def write_leaf_y (sf root_x start_y y_step : ℚ) (i : ℕ) : PNode → ℕ × PNode
  | .mk d cs =>
    if cs.isEmpty then
      let y := start_y + (i : ℚ) * y_step
      (i + 1, .mk { d with yCoord := some y,
                           coords := some (root_x + (d.distToRoot).getD 0 * sf, y) } cs)
    else
      let r := write_leaf_y_list sf root_x start_y y_step i cs
      (r.1, .mk d r.2)
def write_leaf_y_list (sf root_x start_y y_step : ℚ) (i : ℕ) :
    List PNode → ℕ × List PNode
  | [] => (i, [])
  | c :: rest =>
    let rc := write_leaf_y sf root_x start_y y_step i c
    let rr := write_leaf_y_list sf root_x start_y y_step rc.1 rest
    (rr.1, rc.2 :: rr.2)
end

mutual
/-- Vertical internal centering (postorder): `n.y_coord` is the mean of the
children's `y_coord`, and `n.coordinates = (root_x + n.dist_to_root * sf,
n.y_coord)`. -/
def write_internal_y (sf root_x : ℚ) : PNode → PNode
  | .mk d cs =>
    if cs.isEmpty then .mk d cs
    else
      let cs' := write_internal_y_list sf root_x cs
      let y := (cs'.map PNode.yCoordD).sum / (cs'.length : ℚ)
      .mk { d with yCoord := some y,
                   coords := some (root_x + (d.distToRoot).getD 0 * sf, y) } cs'
def write_internal_y_list (sf root_x : ℚ) : List PNode → List PNode
  | [] => []
  | c :: rest => write_internal_y sf root_x c :: write_internal_y_list sf root_x rest
end

/-- Model of `VerticalTreeDrawer._calculate_layout` (drawing/vertical.py, lines
49–82): depth pass, horizontal scale with the same `1.0` fallback, evenly
spaced leaf slots at `(height - 2·pad) / max(len(leaves) - 1, 1)`, internal
centering.  Returns the decorated tree, `self.sf`, `self.root_x` and
`self.total_tree_depth`. -/
def vertical_calculate_layout (style : TreeStyle) (max_width : Option ℚ)
    (t : PNode) : PNode × ℚ × ℚ × ℚ :=
  let t1 := write_dist_to_root none t
  let md := max_dist t1
  let pad := style.margin
  let target_w := max_width.getD style.width
  let sf := if md > 0 then (target_w - pad * 2) / md else 1
  let root_x := -style.width / 2 + pad
  let leavesN := (get_leaves t1).length
  let y_step := (style.height - pad * 2) / ((max (leavesN - 1) 1 : ℕ) : ℚ)
  let start_y := -style.height / 2 + pad
  let t2 := (write_leaf_y sf root_x start_y y_step 0 t1).2
  let t3 := write_internal_y sf root_x t2
  (t3, sf, root_x, md)

/-! ## Legacy layout (`drawing.py`, `RadialTreeDrawer._calculate_coordinates`) -/

/-- The legacy scale factor (drawing.py lines 208–212): `radius / total`
when the total tree length is positive, otherwise `0` — not `1`. -/
def legacy_sf (radius md : ℚ) : ℚ := if md > 0 then radius / md else 0

mutual
/-- Legacy internal centering: `c1, c2 = n.get_children()` unpacks exactly
two children (any other arity raises, modelled as `none`), then
`n.angle = (c1.angle + c2.angle) / 2`. -/
def legacy_write_angles : PNode → Option PNode
  | .mk d cs =>
    if cs.isEmpty then some (.mk d cs)
    else
      match legacy_write_angles_list cs with
      | none => none
      | some cs' =>
        match cs' with
        | [c1, c2] =>
          some (.mk { d with angle := some ((c1.angleD + c2.angleD) / 2) } cs')
        | _ => none
def legacy_write_angles_list : List PNode → Option (List PNode)
  | [] => some []
  | c :: rest =>
    match legacy_write_angles c, legacy_write_angles_list rest with
    | some c', some rest' => some (c' :: rest')
    | _, _ => none
end

mutual
/-- Legacy coordinate assignment: `n.coordinates = (n.angle, n.dist_to_root
* sf)` for every node. -/
def legacy_write_coordinates (sf : ℚ) : PNode → PNode
  | .mk d cs =>
    .mk { d with coords := some ((d.angle).getD 0, (d.distToRoot).getD 0 * sf) }
      (legacy_write_coordinates_list sf cs)
def legacy_write_coordinates_list (sf : ℚ) : List PNode → List PNode
  | [] => []
  | c :: rest => legacy_write_coordinates sf c :: legacy_write_coordinates_list sf rest
end

/-- The legacy `_calculate_coordinates` (drawing.py lines 191–231): same
depth pass, the `0` scale fallback, leaf angles at `degrees / len(leaves)`
(`arc_leaf * index` for the `index`-th leaf), strictly binary internal
centering (`none` if some internal node is not binary), then `(angle,
dist_to_root * sf)` coordinates.  Returns the tree with `self.sf` and
`self.total_length_of_tree`. -/
def legacy_calculate_coordinates (style : TreeStyle) (t : PNode) :
    Option (PNode × ℚ × ℚ) :=
  let t1 := write_dist_to_root none t
  let md := max_dist t1
  let sf := legacy_sf style.radius md
  let leavesN := (get_leaves t1).length
  let arc_leaf := style.degrees / (leavesN : ℚ)
  let t2 := (write_leaf_angles arc_leaf 0 t1).2
  match legacy_write_angles t2 with
  | none => none
  | some t3 => some (legacy_write_coordinates sf t3, sf, md)

/-! ## utils.add_origin_if_root_has_dist -/

/-- Assignment `tree.dist = v` on the root. -/
def set_root_dist (v : ℚ) : PNode → PNode
  | .mk d cs => .mk { d with dist := v } cs

/-- Model of `utils.add_origin_if_root_has_dist` (utils.py lines 42–53): if the root
stem is `≤ 0`, zero it and return the tree itself; otherwise wrap the tree
under a fresh root named `origin_name` with `dist = 0`, the original tree
keeping its stem as its edge length. -/
def add_origin_if_root_has_dist (t : PNode) (origin_name : String := "Origin") :
    PNode :=
  let stem := t.data.dist
  if stem ≤ 0 then set_root_dist 0 t
  else .mk { name := origin_name, dist := 0 } [t]

mutual
/-- The cumulative distance (stem included) of each leaf below a node,
`acc` being the sum of edge lengths above the node: the per-leaf sums of
`dist` along the root-to-leaf path, in leaf order. -/
def leaf_cumuls (acc : ℚ) : PNode → List ℚ
  | .mk d cs =>
    let acc' := acc + d.dist
    if cs.isEmpty then [acc'] else leaf_cumuls_list acc' cs
def leaf_cumuls_list (acc : ℚ) : List PNode → List ℚ
  | [] => []
  | c :: rest => leaf_cumuls acc c ++ leaf_cumuls_list acc rest
end

/-! ## plot_transfers -/

/-- A transfer record as consumed by `plot_transfers`: a Python dict whose
keys `"from"`, `"to"`, `"freq"`, `"time"` may each be absent
(`tr.get(...)` then yields the default). -/
structure TransferRecord where
  fromName : Option String := none
  toName : Option String := none
  freq : Option ℚ := none
  time : Option ℚ := none
deriving Repr, DecidableEq

/-- The data of one emitted transfer curve that the claims speak about: its
two endpoints (the gradient and the Bezier control points are derived from
these) and its stroke width `stroke_width * freq`. -/
structure TransferCurve where
  start : ℚ × ℚ
  stop : ℚ × ℚ
  width : ℚ
deriving Repr, DecidableEq

/-- Model of the dict `name2node` built by plot_transfers from `self.t.traverse()`, followed by
`.get`: resolve a name to a node of the tree, together with the node's
parent (the `.up` reference `_edge_point` will need); a duplicated name
resolves to the node visited last (the traversal order used here differs
from ete3's default level-order only when two nodes share a name, which no
claim exercises). -/
def name2node (t : PNode) (s : String) : Option (Option PNode × PNode) :=
  ((preorder_with_parent none t).filter (fun q => q.2.data.name == s)).getLast?

/-- The per-record acceptance test of `plot_transfers`: the record is kept
iff its `freq` (default `1.0`) is not below `filter_below` and both names
resolve. -/
def transfer_accepted (t : PNode) (filter_below : ℚ) (tr : TransferRecord) : Bool :=
  if (tr.freq).getD 1 < filter_below then false
  else (tr.fromName.bind (name2node t)).isSome && (tr.toName.bind (name2node t)).isSome

/-- Model of `VerticalTreeDrawer.plot_transfers` (drawing/vertical.py lines
363–392), restricted to the emitted curves: records below the frequency
threshold or with an unresolved endpoint are skipped (`continue`); every
other record emits exactly one curve whose endpoints are
`_edge_point(node, get_where(node, time))` in time mode and
`_edge_point(node, 0.5)` otherwise. -/
def vertical_plot_transfers (t : PNode) (mode : String)
    (filter_below stroke_width : ℚ) : List TransferRecord → List TransferCurve
  | [] => []
  | tr :: rest =>
    let freq := (tr.freq).getD 1
    if freq < filter_below then
      vertical_plot_transfers t mode filter_below stroke_width rest
    else
      match tr.fromName.bind (name2node t), tr.toName.bind (name2node t) with
      | some src, some dst =>
        let w_s := if mode = "time" ∧ (tr.time).isSome then
            get_where src.1 src.2 ((tr.time).getD 0) else 1 / 2
        let w_d := if mode = "time" ∧ (tr.time).isSome then
            get_where dst.1 dst.2 ((tr.time).getD 0) else 1 / 2
        { start := (vertical_edge_point src.1 src.2 w_s).1,
          stop := (vertical_edge_point dst.1 dst.2 w_d).1,
          width := stroke_width * freq } ::
          vertical_plot_transfers t mode filter_below stroke_width rest
      | _, _ => vertical_plot_transfers t mode filter_below stroke_width rest

/-- Model of `RadialTreeDrawer.plot_transfers` (drawing/radial.py lines 316–366),
restricted to the emitted curves; identical control flow, with the radial
`_edge_point` (endpoints are its polar pairs). -/
def radial_plot_transfers (t : PNode) (rotation : ℚ) (mode : String)
    (filter_below stroke_width : ℚ) : List TransferRecord → List TransferCurve
  | [] => []
  | tr :: rest =>
    let freq := (tr.freq).getD 1
    if freq < filter_below then
      radial_plot_transfers t rotation mode filter_below stroke_width rest
    else
      match tr.fromName.bind (name2node t), tr.toName.bind (name2node t) with
      | some src, some dst =>
        let w_s := if mode = "time" ∧ (tr.time).isSome then
            get_where src.1 src.2 ((tr.time).getD 0) else 1 / 2
        let w_d := if mode = "time" ∧ (tr.time).isSome then
            get_where dst.1 dst.2 ((tr.time).getD 0) else 1 / 2
        { start := (radial_edge_point rotation src.1 src.2 w_s).1,
          stop := (radial_edge_point rotation dst.1 dst.2 w_d).1,
          width := stroke_width * freq } ::
          radial_plot_transfers t rotation mode filter_below stroke_width rest
      | _, _ => radial_plot_transfers t rotation mode filter_below stroke_width rest

/-! ## Concrete instances used by witnesses and counterexamples -/

/-- A single-node tree (root = leaf) with zero stem. -/
def exSingle : PNode := .mk { name := "R" } []

/-- A bare node carrying only a `time_from_origin` attribute. -/
def exTimeNode (q : Option ℚ) : PNode := .mk { timeFromOrigin := q } []

/-- A bare node carrying only `coordinates`. -/
def exCoordNode (x y : ℚ) : PNode := .mk { coords := some (x, y) } []

/-- A bare node carrying only `angle` and `rad`. -/
def exPolarNode (ang r : ℚ) : PNode := .mk { angle := some ang, rad := some r } []

/-- A root with a negative stem over a single leaf at distance 2. -/
def exNegStem : PNode :=
  .mk { name := "R", dist := -1 } [.mk { name := "A", dist := 2 } []]

/-- A root with a positive stem (2) over a single leaf at distance 3. -/
def exPosStem : PNode :=
  .mk { name := "R", dist := 2 } [.mk { name := "A", dist := 3 } []]

/-- The spec's asymmetric example: root with a leaf child A and an internal
child B that has leaf children C and D. -/
def exAsym : PNode :=
  .mk { name := "root" }
    [.mk { name := "A", dist := 1 } [],
     .mk { name := "B", dist := 1 }
       [.mk { name := "C", dist := 1 } [], .mk { name := "D", dist := 1 } []]]

/-- A named two-leaf tree with coordinates attached, for transfer plotting. -/
def exAB : PNode :=
  .mk { name := "R", coords := some (0, 0) }
    [.mk { name := "A", dist := 1, coords := some (2, -1) } [],
     .mk { name := "B", dist := 1, coords := some (2, 1) } []]

/-- A transfer record that resolves and passes any threshold up to 1. -/
def exTransferGood : TransferRecord :=
  { fromName := some "A", toName := some "B", freq := some 1 }

/-- A transfer record whose frequency 0 falls below a threshold of 1. -/
def exTransferLowFreq : TransferRecord :=
  { fromName := some "A", toName := some "B", freq := some 0 }

/-- A transfer record naming a node absent from the tree. -/
def exTransferBadName : TransferRecord :=
  { fromName := some "X", toName := some "B", freq := some 1 }

/-! # Theorems -/

/-- Structural induction with the inductive hypothesis over all (direct)
children of a node. -/
theorem PNode.strongInduction {P : PNode → Prop}
    (h : ∀ d cs, (∀ c ∈ cs, P c) → P (.mk d cs)) : ∀ t, P t
  | .mk d cs => h d cs (fun c hc => PNode.strongInduction h c)
termination_by t => sizeOf t
decreasing_by
  simp only [PNode.mk.sizeOf_spec]
  have := List.sizeOf_lt_of_mem hc
  omega

/-- The `if w < 0 … if w > 1 …` clamp of `_where_from_time` is the
`max 0 (min 1 ·)` clamp. -/
theorem clamp01_ite (w : ℚ) :
    (if w < 0 then (0 : ℚ) else if w > 1 then 1 else w) = max 0 (min 1 w) := by
  split_ifs with h1 h2
  · rw [min_eq_right (by linarith), max_eq_left (by linarith)]
  · rw [min_eq_left (by linarith), max_eq_right (by norm_num)]
  · rw [min_eq_right (by linarith), max_eq_right (by linarith)]

/-- The clamp lands in `[0, 1]`. -/
theorem clamp01_mem (w : ℚ) :
    0 ≤ (if w < 0 then (0 : ℚ) else if w > 1 then 1 else w) ∧
      (if w < 0 then (0 : ℚ) else if w > 1 then 1 else w) ≤ 1 := by
  split_ifs with h1 h2
  · exact ⟨le_refl 0, by norm_num⟩
  · exact ⟨by norm_num, le_refl 1⟩
  · exact ⟨not_lt.mp h1, not_lt.mp h2⟩

/-- C7: on every edge whose cumulative-time difference exceeds the `1e-12`
guard, `_where_from_time` returns
`clamp((t − t0) / (t1 − t0), 0, 1)` (with `t0`, `t1` the parent's and
node's cumulative `time_from_origin`); for every node and every time the
result lies in `[0, 1]`; and calling it on the root (no parent) returns
`0`. -/
theorem C7_where_from_time_spec :
    (∀ (p node : PNode) (t : ℚ),
      |(node.data.timeFromOrigin).getD ((p.data.timeFromOrigin).getD 0) -
          (p.data.timeFromOrigin).getD 0| > 1 / 10 ^ 12 →
      where_from_time (some p) node t =
        max 0 (min 1 ((t - (p.data.timeFromOrigin).getD 0) /
          ((node.data.timeFromOrigin).getD ((p.data.timeFromOrigin).getD 0) -
            (p.data.timeFromOrigin).getD 0)))) ∧
    (∀ (parent : Option PNode) (node : PNode) (t : ℚ),
      0 ≤ where_from_time parent node t ∧ where_from_time parent node t ≤ 1) ∧
    (∀ (node : PNode) (t : ℚ), where_from_time none node t = 0) := by
  refine ⟨?_, ?_, ?_⟩
  · intro p node t h
    simp only [where_from_time, if_pos h]
    exact clamp01_ite _
  · intro parent node t
    cases parent with
    | none => exact ⟨le_refl 0, by norm_num [where_from_time]⟩
    | some p =>
      simp only [where_from_time]
      exact clamp01_mem _
  · intro node t
    rfl

/-- C7 witness: a concrete edge from cumulative time 0 to 2 and event time
1 satisfies the guard and yields the clamped quotient. -/
theorem C7_where_from_time_spec_witness :
    where_from_time (some (exTimeNode (some 0))) (exTimeNode (some 2)) 1 =
      max 0 (min 1 ((1 - ((exTimeNode (some 0)).data.timeFromOrigin).getD 0) /
        (((exTimeNode (some 2)).data.timeFromOrigin).getD
            (((exTimeNode (some 0)).data.timeFromOrigin).getD 0) -
          ((exTimeNode (some 0)).data.timeFromOrigin).getD 0))) :=
  C7_where_from_time_spec.1 (exTimeNode (some 0)) (exTimeNode (some 2)) 1
    (by norm_num [exTimeNode, PNode.data])

/-- C3 counterexample: the claim that the local `get_where` of
`plot_transfers` agrees with `_where_from_time` everywhere is false.  On a
near-zero edge (both cumulative times 5) at event time 5, `get_where`
returns its `0.5` fallback while `_where_from_time` returns `0`; when the
child's `time_from_origin` is missing (parent at 7, event time 0),
`get_where` defaults the child time to `0` and returns `1` while
`_where_from_time` defaults it to the parent's `7` and returns `0`. -/
theorem C3_counterexample :
    ¬ (∀ (p node : PNode) (t : ℚ),
        get_where (some p) node t = where_from_time (some p) node t) := by
  intro h
  have h5 := h (exTimeNode (some 5)) (exTimeNode (some 5)) 5
  rw [show get_where (some (exTimeNode (some 5))) (exTimeNode (some 5)) 5 = 1 / 2 by
        norm_num [get_where, exTimeNode, PNode.data],
      show where_from_time (some (exTimeNode (some 5))) (exTimeNode (some 5)) 5 = 0 by
        norm_num [where_from_time, exTimeNode, PNode.data]] at h5
  norm_num at h5

/-- C3 (amended): the two time-to-fraction mechanisms agree at the root
(both return `0`) and on every edge whose child `time_from_origin` is
present and differs from the parent's value (default `0`) by more than the
`1e-12` guard; they differ on near-zero edges (`get_where` falls back to
`0.5`, `_where_from_time` to the clamp of `(t − t0) / 1`) and when the
child's attribute is missing (`get_where` defaults it to `0`,
`_where_from_time` to the parent's value). -/
theorem C3_get_where_vs_where_from_time :
    (∀ (node : PNode) (t : ℚ), get_where none node t = where_from_time none node t) ∧
    (∀ (p node : PNode) (t t1 : ℚ),
      node.data.timeFromOrigin = some t1 →
      |t1 - (p.data.timeFromOrigin).getD 0| > 1 / 10 ^ 12 →
      get_where (some p) node t = where_from_time (some p) node t) := by
  constructor
  · intro node t
    rfl
  · intro p node t t1 ht1 h
    simp only [get_where, where_from_time, ht1, Option.getD_some]
    rw [if_pos h, if_pos h]
    exact (clamp01_ite _).symm

/-- C3 witness: on a concrete edge from time 0 to 2 with the attribute
present, both mechanisms give the same fraction. -/
theorem C3_get_where_vs_where_from_time_witness :
    get_where (some (exTimeNode (some 0))) (exTimeNode (some 2)) 1 =
      where_from_time (some (exTimeNode (some 0))) (exTimeNode (some 2)) 1 :=
  C3_get_where_vs_where_from_time.2 (exTimeNode (some 0)) (exTimeNode (some 2)) 1 2
    rfl (by norm_num [exTimeNode, PNode.data])

/-- C2 counterexample: the claim that calling the edge interpolator on the
root raises an `EdgeNotFoundError` is false — no such exception class
exists anywhere in the sources, and the `parent is None` branch of both
`_edge_point` implementations is an early `return` of the node's own
position, as these concrete evaluations show. -/
theorem C2_counterexample :
    radial_edge_point (-90) none (exPolarNode 10 7) (1 / 2) = ((10 + -90, 7), 10 + -90) ∧
    vertical_edge_point none (exCoordNode 3 4) (1 / 2) = ((3, 4), 0) := by
  constructor <;> rfl

/-- C2 (amended): calling the edge interpolator on a node with no parent
(the root) returns the node's own position instead of raising — the polar
pair `(angle + rotation, rad)` with tangent `angle + rotation` in radial
mode and the node's `coordinates` with tangent `0` in vertical mode — so
callers need not check for a parent. -/
theorem C2_edge_point_on_root :
    (∀ (rotation : ℚ) (child : PNode) (w : ℚ),
      radial_edge_point rotation none child w =
        (radial_node_polar rotation child, rot_ang rotation child.angleD)) ∧
    (∀ (child : PNode) (w : ℚ),
      vertical_edge_point none child w = (child.coordsD, 0)) :=
  ⟨fun _ _ _ => rfl, fun _ _ => rfl⟩

/-- C4: for every parent/child pair, `_edge_point(child, 1)` is exactly the
child's own rendered position (the polar pair that `_node_xy` converts in
radial mode; the child's `coordinates` in vertical mode), and
`_edge_point(child, 0)` is the rendered edge's start: the parent's depth
coordinate at the child's spread coordinate — the parent's radius at the
child's rotated angle, resp. the parent's x at the child's y.  The final
conjuncts exhibit a concrete vertical pair where that start differs from
the parent's own position. -/
theorem C4_edge_point_endpoints :
    (∀ (rotation : ℚ) (p c : PNode),
      (radial_edge_point rotation (some p) c 1).1 = radial_node_polar rotation c ∧
      (radial_edge_point rotation (some p) c 0).1 = (rot_ang rotation c.angleD, p.radD)) ∧
    (∀ (p c : PNode),
      (vertical_edge_point (some p) c 1).1 = c.coordsD ∧
      (vertical_edge_point (some p) c 0).1 = (p.coordsD.1, c.coordsD.2)) ∧
    (vertical_edge_point (some (exCoordNode 0 0)) (exCoordNode 5 7) 0).1 = (0, 7) ∧
    (0, 7) ≠ (exCoordNode 0 0).coordsD := by
  refine ⟨?_, ?_,
    by norm_num [vertical_edge_point, exCoordNode, PNode.coordsD, PNode.data],
    by norm_num [exCoordNode, PNode.coordsD, PNode.data]⟩
  · intro rotation p c
    constructor
    · show (rot_ang rotation c.angleD, p.radD + (c.radD - p.radD) * max 0 (min 1 1)) =
        radial_node_polar rotation c
      rw [radial_node_polar]
      norm_num
    · show (rot_ang rotation c.angleD, p.radD + (c.radD - p.radD) * max 0 (min 1 0)) =
        (rot_ang rotation c.angleD, p.radD)
      norm_num
  · intro p c
    constructor
    · show (p.coordsD.1 + (c.coordsD.1 - p.coordsD.1) * max 0 (min 1 1), c.coordsD.2) =
        c.coordsD
      norm_num
    · show (p.coordsD.1 + (c.coordsD.1 - p.coordsD.1) * max 0 (min 1 0), c.coordsD.2) =
        (p.coordsD.1, c.coordsD.2)
      norm_num

/-- C10 counterexample: the claim's preservation clause fails on a negative
stem.  For a root with stem −1 over a leaf at distance 2,
`add_origin_if_root_has_dist` zeroes the stem, changing the leaf's
cumulative distance (stem included) from 1 to 2. -/
theorem C10_counterexample :
    leaf_cumuls 0 (add_origin_if_root_has_dist exNegStem) = [2] ∧
    leaf_cumuls 0 exNegStem = [1] ∧
    ¬ (∀ t : PNode,
        leaf_cumuls 0 (add_origin_if_root_has_dist t) = leaf_cumuls 0 t) := by
  refine ⟨?_, ?_, ?_⟩
  · norm_num [add_origin_if_root_has_dist, set_root_dist, leaf_cumuls,
      leaf_cumuls_list, exNegStem, PNode.data]
  · norm_num [leaf_cumuls, leaf_cumuls_list, exNegStem]
  · intro h
    have h1 := h exNegStem
    rw [show leaf_cumuls 0 (add_origin_if_root_has_dist exNegStem) = [2] by
          norm_num [add_origin_if_root_has_dist, set_root_dist, leaf_cumuls,
            leaf_cumuls_list, exNegStem, PNode.data],
        show leaf_cumuls 0 exNegStem = [1] by
          norm_num [leaf_cumuls, leaf_cumuls_list, exNegStem]] at h1
    norm_num at h1

/-- C10 (amended): `add_origin_if_root_has_dist` always returns a tree
whose root has edge length 0; a root stem `≤ 0` is zeroed in place and the
same tree returned; a positive stem yields a new root named `origin_name`
with edge length 0 whose single child is the original tree keeping its
stem — and whenever the input stem is `≥ 0` (the zeroing is only a
rewrite of an already-zero or absent stem), every leaf's cumulative
distance below the returned root equals its cumulative distance in the
input.  (A negative stem is zeroed too, which shifts every cumulative
distance by its absolute value.) -/
theorem C10_add_origin_spec :
    (∀ (t : PNode) (nm : String),
      (add_origin_if_root_has_dist t nm).data.dist = 0) ∧
    (∀ (t : PNode) (nm : String), t.data.dist ≤ 0 →
      add_origin_if_root_has_dist t nm = set_root_dist 0 t) ∧
    (∀ (t : PNode) (nm : String), 0 < t.data.dist →
      add_origin_if_root_has_dist t nm = .mk { name := nm, dist := 0 } [t]) ∧
    (∀ (t : PNode) (nm : String), 0 ≤ t.data.dist →
      leaf_cumuls 0 (add_origin_if_root_has_dist t nm) = leaf_cumuls 0 t) := by
  refine ⟨?_, ?_, ?_, ?_⟩
  · intro t nm
    obtain ⟨d, cs⟩ := t
    simp only [add_origin_if_root_has_dist, PNode.data]
    by_cases h : d.dist ≤ 0
    · rw [if_pos h]
      simp only [set_root_dist, PNode.data]
    · rw [if_neg h]
  · intro t nm h
    simp [add_origin_if_root_has_dist, h]
  · intro t nm h
    simp [add_origin_if_root_has_dist, not_le.mpr h]
  · intro t nm h
    by_cases h0 : t.data.dist ≤ 0
    · have hz : t.data.dist = 0 := le_antisymm h0 h
      obtain ⟨d, cs⟩ := t
      simp only [PNode.data] at hz
      simp only [add_origin_if_root_has_dist, PNode.data, hz]
      rw [if_pos (le_refl (0 : ℚ))]
      simp only [set_root_dist, leaf_cumuls, hz]
    · simp only [add_origin_if_root_has_dist, if_neg h0]
      simp [leaf_cumuls, leaf_cumuls_list]

/-- C10 witness: on the concrete positive-stem tree the stem is
nonnegative and the leaf cumulative distances are preserved. -/
theorem C10_add_origin_spec_witness :
    leaf_cumuls 0 (add_origin_if_root_has_dist exPosStem "Origin") =
      leaf_cumuls 0 exPosStem :=
  C10_add_origin_spec.2.2.2 exPosStem "Origin" (by norm_num [exPosStem, PNode.data])

/-- A rejected record (`continue` in the loop) leaves the vertical
transfer output unchanged. -/
theorem vertical_step_skip (t : PNode) (mode : String) (fb sw : ℚ)
    (tr : TransferRecord) (rest : List TransferRecord)
    (h : transfer_accepted t fb tr = false) :
    vertical_plot_transfers t mode fb sw (tr :: rest) =
      vertical_plot_transfers t mode fb sw rest := by
  by_cases hf : (tr.freq).getD 1 < fb
  · simp [vertical_plot_transfers, hf]
  · rcases hs : tr.fromName.bind (name2node t) with _ | src
    · simp [vertical_plot_transfers, hf, hs]
    · rcases hd : tr.toName.bind (name2node t) with _ | dst
      · simp [vertical_plot_transfers, hf, hs, hd]
      · rw [transfer_accepted, if_neg hf, hs, hd] at h
        simp at h

/-- An accepted record emits exactly one curve in the vertical drawer,
with the mode-dependent edge fractions of the source. -/
theorem vertical_step_emit (t : PNode) (mode : String) (fb sw : ℚ)
    (tr : TransferRecord) (rest : List TransferRecord)
    (h : transfer_accepted t fb tr = true) :
    ∃ src dst, tr.fromName.bind (name2node t) = some src ∧
      tr.toName.bind (name2node t) = some dst ∧
      vertical_plot_transfers t mode fb sw (tr :: rest) =
        { start := (vertical_edge_point src.1 src.2
              (if mode = "time" ∧ (tr.time).isSome then
                get_where src.1 src.2 ((tr.time).getD 0) else 1 / 2)).1,
          stop := (vertical_edge_point dst.1 dst.2
              (if mode = "time" ∧ (tr.time).isSome then
                get_where dst.1 dst.2 ((tr.time).getD 0) else 1 / 2)).1,
          width := sw * (tr.freq).getD 1 } ::
          vertical_plot_transfers t mode fb sw rest := by
  have hf : ¬ (tr.freq).getD 1 < fb := by
    intro hc
    simp [transfer_accepted, hc] at h
  rcases hs : tr.fromName.bind (name2node t) with _ | src
  · rw [transfer_accepted, if_neg hf, hs] at h
    simp at h
  · rcases hd : tr.toName.bind (name2node t) with _ | dst
    · rw [transfer_accepted, if_neg hf, hs, hd] at h
      simp at h
    · exact ⟨src, dst, rfl, rfl, by simp [vertical_plot_transfers, hf, hs, hd]⟩

/-- A rejected record leaves the radial transfer output unchanged. -/
theorem radial_step_skip (t : PNode) (rotation : ℚ) (mode : String) (fb sw : ℚ)
    (tr : TransferRecord) (rest : List TransferRecord)
    (h : transfer_accepted t fb tr = false) :
    radial_plot_transfers t rotation mode fb sw (tr :: rest) =
      radial_plot_transfers t rotation mode fb sw rest := by
  by_cases hf : (tr.freq).getD 1 < fb
  · simp [radial_plot_transfers, hf]
  · rcases hs : tr.fromName.bind (name2node t) with _ | src
    · simp [radial_plot_transfers, hf, hs]
    · rcases hd : tr.toName.bind (name2node t) with _ | dst
      · simp [radial_plot_transfers, hf, hs, hd]
      · rw [transfer_accepted, if_neg hf, hs, hd] at h
        simp at h

/-- An accepted record emits exactly one curve in the radial drawer. -/
theorem radial_step_emit (t : PNode) (rotation : ℚ) (mode : String) (fb sw : ℚ)
    (tr : TransferRecord) (rest : List TransferRecord)
    (h : transfer_accepted t fb tr = true) :
    ∃ src dst, tr.fromName.bind (name2node t) = some src ∧
      tr.toName.bind (name2node t) = some dst ∧
      radial_plot_transfers t rotation mode fb sw (tr :: rest) =
        { start := (radial_edge_point rotation src.1 src.2
              (if mode = "time" ∧ (tr.time).isSome then
                get_where src.1 src.2 ((tr.time).getD 0) else 1 / 2)).1,
          stop := (radial_edge_point rotation dst.1 dst.2
              (if mode = "time" ∧ (tr.time).isSome then
                get_where dst.1 dst.2 ((tr.time).getD 0) else 1 / 2)).1,
          width := sw * (tr.freq).getD 1 } ::
          radial_plot_transfers t rotation mode fb sw rest := by
  have hf : ¬ (tr.freq).getD 1 < fb := by
    intro hc
    simp [transfer_accepted, hc] at h
  rcases hs : tr.fromName.bind (name2node t) with _ | src
  · rw [transfer_accepted, if_neg hf, hs] at h
    simp at h
  · rcases hd : tr.toName.bind (name2node t) with _ | dst
    · rw [transfer_accepted, if_neg hf, hs, hd] at h
      simp at h
    · exact ⟨src, dst, rfl, rfl, by simp [radial_plot_transfers, hf, hs, hd]⟩

/-- The vertical transfer output has one curve per accepted record. -/
theorem vertical_plot_transfers_length (t : PNode) (mode : String) (fb sw : ℚ)
    (trs : List TransferRecord) :
    (vertical_plot_transfers t mode fb sw trs).length =
      trs.countP (transfer_accepted t fb) := by
  induction trs with
  | nil => simp [vertical_plot_transfers]
  | cons tr rest ih =>
    rcases ha : transfer_accepted t fb tr
    · rw [vertical_step_skip t mode fb sw tr rest ha]
      simp [List.countP_cons, ha, ih]
    · obtain ⟨src, dst, hs, hd, he⟩ := vertical_step_emit t mode fb sw tr rest ha
      rw [he]
      simp [List.countP_cons, ha, ih]

/-- The radial transfer output has one curve per accepted record. -/
theorem radial_plot_transfers_length (t : PNode) (rotation : ℚ) (mode : String)
    (fb sw : ℚ) (trs : List TransferRecord) :
    (radial_plot_transfers t rotation mode fb sw trs).length =
      trs.countP (transfer_accepted t fb) := by
  induction trs with
  | nil => simp [radial_plot_transfers]
  | cons tr rest ih =>
    rcases ha : transfer_accepted t fb tr
    · rw [radial_step_skip t rotation mode fb sw tr rest ha]
      simp [List.countP_cons, ha, ih]
    · obtain ⟨src, dst, hs, hd, he⟩ := radial_step_emit t rotation mode fb sw tr rest ha
      rw [he]
      simp [List.countP_cons, ha, ih]

/-- C8: `plot_transfers` (both drawers) processes each record
independently: a record whose `freq` (default 1.0) is below the threshold
or whose `from`/`to` name does not resolve is skipped; skipping never
aborts the remaining records; the output has exactly one curve per
accepted record; and outside time mode each emitted curve's endpoints are
the two branch midpoints (`_edge_point` at fraction 1/2). -/
theorem C8_plot_transfers (t : PNode) (rotation : ℚ) (mode : String) (fb sw : ℚ) :
    (∀ trs : List TransferRecord,
      (vertical_plot_transfers t mode fb sw trs).length =
          trs.countP (transfer_accepted t fb) ∧
      (radial_plot_transfers t rotation mode fb sw trs).length =
          trs.countP (transfer_accepted t fb)) ∧
    (∀ (tr : TransferRecord) (rest : List TransferRecord),
      transfer_accepted t fb tr = false →
      vertical_plot_transfers t mode fb sw (tr :: rest) =
          vertical_plot_transfers t mode fb sw rest ∧
      radial_plot_transfers t rotation mode fb sw (tr :: rest) =
          radial_plot_transfers t rotation mode fb sw rest) ∧
    (∀ (tr : TransferRecord) (rest : List TransferRecord),
      transfer_accepted t fb tr = true → mode ≠ "time" →
      ∃ src dst, tr.fromName.bind (name2node t) = some src ∧
        tr.toName.bind (name2node t) = some dst ∧
        vertical_plot_transfers t mode fb sw (tr :: rest) =
          { start := (vertical_edge_point src.1 src.2 (1 / 2)).1,
            stop := (vertical_edge_point dst.1 dst.2 (1 / 2)).1,
            width := sw * (tr.freq).getD 1 } ::
            vertical_plot_transfers t mode fb sw rest ∧
        radial_plot_transfers t rotation mode fb sw (tr :: rest) =
          { start := (radial_edge_point rotation src.1 src.2 (1 / 2)).1,
            stop := (radial_edge_point rotation dst.1 dst.2 (1 / 2)).1,
            width := sw * (tr.freq).getD 1 } ::
            radial_plot_transfers t rotation mode fb sw rest) := by
  refine ⟨?_, ?_, ?_⟩
  · intro trs
    exact ⟨vertical_plot_transfers_length t mode fb sw trs,
      radial_plot_transfers_length t rotation mode fb sw trs⟩
  · intro tr rest h
    exact ⟨vertical_step_skip t mode fb sw tr rest h,
      radial_step_skip t rotation mode fb sw tr rest h⟩
  · intro tr rest h hm
    have hmt : ¬ (mode = "time" ∧ (tr.time).isSome) := by
      intro hc
      exact hm hc.1
    obtain ⟨src, dst, hs, hd, he⟩ := vertical_step_emit t mode fb sw tr rest h
    obtain ⟨src', dst', hs', hd', he'⟩ := radial_step_emit t rotation mode fb sw tr rest h
    rw [hs] at hs'
    rw [hd] at hd'
    rw [if_neg hmt, if_neg hmt] at he he'
    cases hs'
    cases hd'
    exact ⟨src, dst, hs, hd, he, he'⟩

/-- C8 witness: on the concrete tree, with threshold 1, the
good record is accepted and emits the midpoint curve, and the low-frequency
record is rejected (as is the record with an unresolvable name). -/
theorem C8_plot_transfers_witness :
    transfer_accepted exAB 1 exTransferLowFreq = false ∧
    transfer_accepted exAB 1 exTransferBadName = false ∧
    (vertical_plot_transfers exAB "midpoint" 1 5
        (exTransferLowFreq :: [exTransferGood]) =
      vertical_plot_transfers exAB "midpoint" 1 5 [exTransferGood] ∧
     radial_plot_transfers exAB 0 "midpoint" 1 5
        (exTransferLowFreq :: [exTransferGood]) =
      radial_plot_transfers exAB 0 "midpoint" 1 5 [exTransferGood]) ∧
    (∃ src dst,
      exTransferGood.fromName.bind (name2node exAB) = some src ∧
      exTransferGood.toName.bind (name2node exAB) = some dst ∧
      vertical_plot_transfers exAB "midpoint" 1 5 (exTransferGood :: []) =
        { start := (vertical_edge_point src.1 src.2 (1 / 2)).1,
          stop := (vertical_edge_point dst.1 dst.2 (1 / 2)).1,
          width := 5 * (exTransferGood.freq).getD 1 } ::
          vertical_plot_transfers exAB "midpoint" 1 5 [] ∧
      radial_plot_transfers exAB 0 "midpoint" 1 5 (exTransferGood :: []) =
        { start := (radial_edge_point 0 src.1 src.2 (1 / 2)).1,
          stop := (radial_edge_point 0 dst.1 dst.2 (1 / 2)).1,
          width := 5 * (exTransferGood.freq).getD 1 } ::
          radial_plot_transfers exAB 0 "midpoint" 1 5 []) := by
  have hlow : transfer_accepted exAB 1 exTransferLowFreq = false := by decide
  have hbad : transfer_accepted exAB 1 exTransferBadName = false := by decide
  have hgood : transfer_accepted exAB 1 exTransferGood = true := by decide
  refine ⟨hlow, hbad, (C8_plot_transfers exAB 0 "midpoint" 1 5).2.1
      exTransferLowFreq [exTransferGood] hlow, ?_⟩
  exact (C8_plot_transfers exAB 0 "midpoint" 1 5).2.2
    exTransferGood [] hgood (by simp)

/-! ## Generic list and traversal helpers -/

/-- A list is fixed by `map f` iff every element is fixed by `f`. -/
theorem map_fix_iff {f : PNode → PNode} {cs : List PNode} :
    cs.map f = cs ↔ ∀ c ∈ cs, f c = c := by
  induction cs with
  | nil => simp
  | cons c rest ih => simp [ih]

theorem mem_preorder_list {n : PNode} {cs : List PNode} :
    n ∈ preorder_list cs ↔ ∃ c ∈ cs, n ∈ preorder c := by
  induction cs with
  | nil => simp [preorder_list]
  | cons c rest ih => simp [preorder_list, ih]

theorem self_mem_preorder (t : PNode) : t ∈ preorder t := by
  obtain ⟨d, cs⟩ := t
  simp [preorder]

theorem mem_get_leaves_list {n : PNode} {cs : List PNode} :
    n ∈ get_leaves_list cs ↔ ∃ c ∈ cs, n ∈ get_leaves c := by
  induction cs with
  | nil => simp [get_leaves_list]
  | cons c rest ih => simp [get_leaves_list, ih]

/-- Lemma: `get_leaves` is the preorder restricted to leaves. -/
theorem mem_get_leaves_iff (t : PNode) (n : PNode) :
    n ∈ get_leaves t ↔ n ∈ preorder t ∧ n.is_leaf = true := by
  induction t using PNode.strongInduction with
  | h d cs ih =>
    by_cases hcs : cs.isEmpty
    · have hnil : cs = [] := List.isEmpty_iff.mp hcs
      subst hnil
      constructor
      · intro h
        rw [get_leaves] at h
        simp at h
        subst h
        exact ⟨self_mem_preorder _, rfl⟩
      · rintro ⟨hmem, _⟩
        rw [preorder] at hmem
        simp [preorder_list] at hmem
        subst hmem
        simp [get_leaves]
    · rw [get_leaves]
      rw [if_neg hcs]
      rw [mem_get_leaves_list]
      rw [preorder]
      constructor
      · rintro ⟨c, hc, hn⟩
        have hmm := (ih c hc).mp hn
        exact ⟨List.mem_cons_of_mem _ (mem_preorder_list.mpr ⟨c, hc, hmm.1⟩), hmm.2⟩
      · rintro ⟨hmem, hleaf⟩
        rcases List.mem_cons.mp hmem with hroot | htail
        · exfalso
          subst hroot
          simp [PNode.is_leaf, PNode.children, hcs] at hleaf
        · obtain ⟨c, hc, hn⟩ := mem_preorder_list.mp htail
          exact ⟨c, hc, (ih c hc).mpr ⟨hn, hleaf⟩⟩

/-- The mutual list companions are `List.map`s. -/
theorem write_dist_to_root_list_eq (p : Option ℚ) (cs : List PNode) :
    write_dist_to_root_list p cs = cs.map (write_dist_to_root p) := by
  induction cs with
  | nil => rfl
  | cons c rest ih => simp [write_dist_to_root_list, ih]

theorem write_rad_list_eq (sf : ℚ) (cs : List PNode) :
    write_rad_list sf cs = cs.map (write_rad sf) := by
  induction cs with
  | nil => rfl
  | cons c rest ih => simp [write_rad_list, ih]

theorem write_internal_angles_list_eq (cs : List PNode) :
    write_internal_angles_list cs = cs.map write_internal_angles := by
  induction cs with
  | nil => rfl
  | cons c rest ih => simp [write_internal_angles_list, ih]

theorem write_internal_y_list_eq (sf root_x : ℚ) (cs : List PNode) :
    write_internal_y_list sf root_x cs = cs.map (write_internal_y sf root_x) := by
  induction cs with
  | nil => rfl
  | cons c rest ih => simp [write_internal_y_list, ih]

/-- Every element of the counter-threaded leaf-angle pass output is the
pass applied (at some counter value) to an element of the input. -/
theorem mem_write_leaf_angles_list {step : ℚ} :
    ∀ {cs : List PNode} {i : ℕ} {c₂ : PNode},
      c₂ ∈ (write_leaf_angles_list step i cs).2 →
      ∃ c ∈ cs, ∃ j, c₂ = (write_leaf_angles step j c).2 := by
  intro cs
  induction cs with
  | nil => intro i c₂ h; simp [write_leaf_angles_list] at h
  | cons c rest ih =>
    intro i c₂ h
    simp only [write_leaf_angles_list, List.mem_cons] at h
    rcases h with h | h
    · exact ⟨c, List.mem_cons_self c rest, i, h⟩
    · obtain ⟨c', hc', j, hj⟩ := ih h
      exact ⟨c', List.mem_cons_of_mem _ hc', j, hj⟩

/-- Same for the vertical leaf pass. -/
theorem mem_write_leaf_y_list {sf root_x start_y y_step : ℚ} :
    ∀ {cs : List PNode} {i : ℕ} {c₂ : PNode},
      c₂ ∈ (write_leaf_y_list sf root_x start_y y_step i cs).2 →
      ∃ c ∈ cs, ∃ j, c₂ = (write_leaf_y sf root_x start_y y_step j c).2 := by
  intro cs
  induction cs with
  | nil => intro i c₂ h; simp [write_leaf_y_list] at h
  | cons c rest ih =>
    intro i c₂ h
    simp only [write_leaf_y_list, List.mem_cons] at h
    rcases h with h | h
    · exact ⟨c, List.mem_cons_self c rest, i, h⟩
    · obtain ⟨c', hc', j, hj⟩ := ih h
      exact ⟨c', List.mem_cons_of_mem _ hc', j, hj⟩

/-! ## Leaf preservation across layout passes -/

theorem get_leaves_list_map_length (f : PNode → PNode) :
    ∀ cs : List PNode,
      (∀ c ∈ cs, (get_leaves (f c)).length = (get_leaves c).length) →
      (get_leaves_list (cs.map f)).length = (get_leaves_list cs).length := by
  intro cs
  induction cs with
  | nil => intro _; rfl
  | cons c rest ih =>
    intro h
    simp only [List.map_cons, get_leaves_list, List.length_append]
    rw [h c (by simp), ih (fun x hx => h x (by simp [hx]))]

theorem get_leaves_list_map_eq (f : PNode → PNode) :
    ∀ cs : List PNode, (∀ c ∈ cs, get_leaves (f c) = get_leaves c) →
      get_leaves_list (cs.map f) = get_leaves_list cs := by
  intro cs
  induction cs with
  | nil => intro _; rfl
  | cons c rest ih =>
    intro h
    simp only [List.map_cons, get_leaves_list]
    rw [h c (by simp), ih (fun x hx => h x (by simp [hx]))]

/-- Pass 1 preserves the number (and order) of leaves. -/
theorem get_leaves_write_dist_length (t : PNode) :
    ∀ p, (get_leaves (write_dist_to_root p t)).length = (get_leaves t).length := by
  induction t using PNode.strongInduction with
  | h d cs ih =>
    intro p
    cases cs with
    | nil => rfl
    | cons c rest =>
      simp only [write_dist_to_root, write_dist_to_root_list_eq]
      rw [get_leaves, get_leaves]
      simp only [List.map_cons, List.isEmpty_cons, if_false, Bool.false_eq_true]
      exact get_leaves_list_map_length _ (c :: rest) (fun x hx => ih x hx _)

/-- The radius pass preserves the number of leaves. -/
theorem get_leaves_write_rad_length (t : PNode) :
    ∀ sf, (get_leaves (write_rad sf t)).length = (get_leaves t).length := by
  induction t using PNode.strongInduction with
  | h d cs ih =>
    intro sf
    cases cs with
    | nil => rfl
    | cons c rest =>
      simp only [write_rad, write_rad_list_eq]
      rw [get_leaves, get_leaves]
      simp only [List.map_cons, List.isEmpty_cons, if_false, Bool.false_eq_true]
      exact get_leaves_list_map_length _ (c :: rest) (fun x hx => ih x hx _)

/-- Internal centering does not touch the leaves at all. -/
theorem get_leaves_write_internal_angles (t : PNode) :
    get_leaves (write_internal_angles t) = get_leaves t := by
  induction t using PNode.strongInduction with
  | h d cs ih =>
    cases cs with
    | nil => rfl
    | cons c rest =>
      simp only [write_internal_angles, write_internal_angles_list_eq,
        List.isEmpty_cons, Bool.false_eq_true, if_false]
      rw [get_leaves, get_leaves]
      simp only [List.map_cons, List.isEmpty_cons, if_false, Bool.false_eq_true]
      exact get_leaves_list_map_eq _ (c :: rest) (fun x hx => ih x hx)

/-- Vertical internal centering does not touch the leaves either. -/
theorem get_leaves_write_internal_y (sf root_x : ℚ) (t : PNode) :
    get_leaves (write_internal_y sf root_x t) = get_leaves t := by
  induction t using PNode.strongInduction with
  | h d cs ih =>
    cases cs with
    | nil => rfl
    | cons c rest =>
      simp only [write_internal_y, write_internal_y_list_eq,
        List.isEmpty_cons, Bool.false_eq_true, if_false]
      rw [get_leaves, get_leaves]
      simp only [List.map_cons, List.isEmpty_cons, if_false, Bool.false_eq_true]
      exact get_leaves_list_map_eq _ (c :: rest) (fun x hx => ih x hx)

/-! ## Characterization of the leaf-spread passes -/

/-- List part of the leaf-angle characterization, under the pointwise tree
property of the elements. -/
theorem write_leaf_angles_list_spec (step : ℚ) :
    ∀ (cs : List PNode),
      (∀ c ∈ cs, ∀ i : ℕ,
        (write_leaf_angles step i c).1 = i + (get_leaves c).length ∧
        (get_leaves (write_leaf_angles step i c).2).map (fun n => n.data.angle) =
          (List.range (get_leaves c).length).map
            (fun k => some (((i + k : ℕ) : ℚ) * step))) →
      ∀ i : ℕ,
        (write_leaf_angles_list step i cs).1 = i + (get_leaves_list cs).length ∧
        (write_leaf_angles_list step i cs).2.length = cs.length ∧
        (get_leaves_list (write_leaf_angles_list step i cs).2).map
            (fun n => n.data.angle) =
          (List.range (get_leaves_list cs).length).map
            (fun k => some (((i + k : ℕ) : ℚ) * step)) := by
  intro cs
  induction cs with
  | nil =>
    intro _ i
    exact ⟨rfl, rfl, rfl⟩
  | cons c rest ih =>
    intro H i
    obtain ⟨hc1, hc2⟩ := H c (by simp) i
    obtain ⟨hr1, hr2, hr3⟩ := ih (fun x hx => H x (by simp [hx])) (write_leaf_angles step i c).1
    refine ⟨?_, ?_, ?_⟩
    · simp only [write_leaf_angles_list, get_leaves_list, List.length_append]
      omega
    · simp only [write_leaf_angles_list, List.length_cons]
      omega
    · simp only [write_leaf_angles_list, get_leaves_list, List.map_append,
        List.length_append]
      rw [hc2, hr3, hc1, List.range_add, List.map_append, List.map_map]
      congr 1
      apply List.map_congr_left
      intro k _
      simp only [Function.comp_apply]
      congr 1
      push_cast
      ring

/-- Characterization of the leaf-angle pass: the returned index has
advanced by the number of leaves, and the leaves of the output carry the
angles `i·step, (i+1)·step, …` in depth-first left-to-right order. -/
theorem write_leaf_angles_spec (step : ℚ) (t : PNode) :
    ∀ i : ℕ,
      (write_leaf_angles step i t).1 = i + (get_leaves t).length ∧
      (get_leaves (write_leaf_angles step i t).2).map (fun n => n.data.angle) =
        (List.range (get_leaves t).length).map
          (fun k => some (((i + k : ℕ) : ℚ) * step)) := by
  induction t using PNode.strongInduction with
  | h d cs ih =>
    intro i
    cases cs with
    | nil =>
      constructor
      · rfl
      · simp [write_leaf_angles, get_leaves, PNode.data, List.range_succ]
    | cons c rest =>
      obtain ⟨h1, h2, h3⟩ :=
        write_leaf_angles_list_spec step (c :: rest) (fun x hx => ih x hx) i
      constructor
      · simp only [write_leaf_angles, List.isEmpty_cons, Bool.false_eq_true, if_false]
        rw [get_leaves]
        simp only [List.isEmpty_cons, Bool.false_eq_true, if_false]
        exact h1
      · simp only [write_leaf_angles, List.isEmpty_cons, Bool.false_eq_true, if_false]
        rw [get_leaves, get_leaves]
        simp only [List.isEmpty_cons, Bool.false_eq_true, if_false]
        rcases hne : (write_leaf_angles_list step i (c :: rest)).2 with _ | ⟨x, xs⟩
        · exfalso
          have := h2
          rw [hne] at this
          simp at this
        · rw [← hne]
          rw [hne]
          have h3' := h3
          rw [hne] at h3'
          exact h3'

/-- Every tree has at least one leaf. -/
theorem get_leaves_length_pos (t : PNode) : 0 < (get_leaves t).length := by
  induction t using PNode.strongInduction with
  | h d cs ih =>
    cases cs with
    | nil => simp [get_leaves]
    | cons c rest =>
      rw [get_leaves]
      simp only [List.isEmpty_cons, Bool.false_eq_true, if_false, get_leaves_list,
        List.length_append]
      have := ih c (by simp)
      omega

/-- After internal centering, every non-leaf node's angle is the
arithmetic mean of its immediate children's angles. -/
theorem write_internal_angles_mean (t : PNode) :
    ∀ n ∈ preorder (write_internal_angles t), n.is_leaf = false →
      n.data.angle =
        some ((n.children.map PNode.angleD).sum / (n.children.length : ℚ)) := by
  induction t using PNode.strongInduction with
  | h d cs ih =>
    intro n hn hleaf
    cases cs with
    | nil =>
      rw [write_internal_angles] at hn
      simp only [List.isEmpty_nil, if_true, preorder, preorder_list,
        List.mem_singleton] at hn
      subst hn
      simp [PNode.is_leaf, PNode.children] at hleaf
    | cons c rest =>
      simp only [write_internal_angles, write_internal_angles_list_eq,
        List.isEmpty_cons, Bool.false_eq_true, if_false] at hn
      rw [preorder] at hn
      rcases List.mem_cons.mp hn with hroot | htail
      · subst hroot
        simp [PNode.data, PNode.children, write_internal_angles_list_eq]
      · obtain ⟨c', hc', hn'⟩ := mem_preorder_list.mp htail
        obtain ⟨x, hx, hfx⟩ := List.mem_map.mp hc'
        subst hfx
        exact ih x hx n hn' hleaf

/-- After vertical internal centering, every non-leaf node's vertical slot
is the arithmetic mean of its immediate children's. -/
theorem write_internal_y_mean (sf root_x : ℚ) (t : PNode) :
    ∀ n ∈ preorder (write_internal_y sf root_x t), n.is_leaf = false →
      n.data.yCoord =
        some ((n.children.map PNode.yCoordD).sum / (n.children.length : ℚ)) := by
  induction t using PNode.strongInduction with
  | h d cs ih =>
    intro n hn hleaf
    cases cs with
    | nil =>
      rw [write_internal_y] at hn
      simp only [List.isEmpty_nil, if_true, preorder, preorder_list,
        List.mem_singleton] at hn
      subst hn
      simp [PNode.is_leaf, PNode.children] at hleaf
    | cons c rest =>
      simp only [write_internal_y, write_internal_y_list_eq,
        List.isEmpty_cons, Bool.false_eq_true, if_false] at hn
      rw [preorder] at hn
      rcases List.mem_cons.mp hn with hroot | htail
      · subst hroot
        simp [PNode.data, PNode.children, write_internal_y_list_eq]
      · obtain ⟨c', hc', hn'⟩ := mem_preorder_list.mp htail
        obtain ⟨x, hx, hfx⟩ := List.mem_map.mp hc'
        subst hfx
        exact ih x hx n hn' hleaf

/-- C6: after layout, every internal node's spread value (angle in polar
mode, vertical slot in Cartesian mode) equals the arithmetic mean of its
immediate children's spread values, for internal nodes with any number of
children; and on the spec's asymmetric example (root over leaf A and
internal B over leaves C, D) the root angle is 90°, which differs from the
mean 120° over its descendant leaves — so the rule is mean-of-children,
not mean-of-descendant-leaves. -/
theorem C6_internal_mean :
    (∀ (style : TreeStyle) (t : PNode),
      ∀ n ∈ preorder (radial_calculate_layout style t).1, n.is_leaf = false →
        n.data.angle =
          some ((n.children.map PNode.angleD).sum / (n.children.length : ℚ))) ∧
    (∀ (style : TreeStyle) (mw : Option ℚ) (t : PNode),
      ∀ n ∈ preorder (vertical_calculate_layout style mw t).1, n.is_leaf = false →
        n.data.yCoord =
          some ((n.children.map PNode.yCoordD).sum / (n.children.length : ℚ))) ∧
    (radial_calculate_layout {} exAsym).1.data.angle = some 90 ∧
    ((get_leaves (radial_calculate_layout {} exAsym).1).map PNode.angleD).sum /
        ((get_leaves (radial_calculate_layout {} exAsym).1).length : ℚ) = 120 ∧
    (90 : ℚ) ≠ 120 := by
  refine ⟨?_, ?_, ?_, ?_, by norm_num⟩
  · intro style t
    simp only [radial_calculate_layout]
    exact write_internal_angles_mean _
  · intro style mw t
    simp only [vertical_calculate_layout]
    exact write_internal_y_mean _ _ _
  · norm_num [radial_calculate_layout, write_dist_to_root, write_dist_to_root_list,
      max_dist, preorder, preorder_list, PNode.distToRootD, PNode.data, PNode.angleD,
      write_rad, write_rad_list, get_leaves, get_leaves_list, write_leaf_angles,
      write_leaf_angles_list, write_internal_angles, write_internal_angles_list,
      PNode.children, exAsym, List.foldl, max_def]
  · norm_num [radial_calculate_layout, write_dist_to_root, write_dist_to_root_list,
      max_dist, preorder, preorder_list, PNode.distToRootD, PNode.data, PNode.angleD,
      write_rad, write_rad_list, get_leaves, get_leaves_list, write_leaf_angles,
      write_leaf_angles_list, write_internal_angles, write_internal_angles_list,
      PNode.children, exAsym, List.foldl, max_def]

/-- C6 witness: the root of the laid-out asymmetric example is internal and
its angle is the mean of its two children's angles. -/
theorem C6_internal_mean_witness :
    (radial_calculate_layout {} exAsym).1.data.angle =
      some ((((radial_calculate_layout {} exAsym).1.children.map PNode.angleD).sum) /
        ((radial_calculate_layout {} exAsym).1.children.length : ℚ)) :=
  C6_internal_mean.1 {} exAsym (radial_calculate_layout {} exAsym).1
    (self_mem_preorder _) (by rfl)

/-- C5: in polar layout the i-th leaf in traversal order receives angle
exactly `i × degrees / leafCount` (the span is divided by the leaf count —
`max(len(leaves), 1)` equals the leaf count, a tree never having fewer
than one leaf — not by `leafCount − 1`), and for a full-circle span with
more than one leaf all leaf angles are pairwise distinct (in particular
the first and last never coincide). -/
theorem C5_leaf_angles (style : TreeStyle) (t : PNode) :
    (get_leaves (radial_calculate_layout style t).1).map (fun n => n.data.angle) =
      (List.range (get_leaves t).length).map
        (fun k : ℕ => some ((k : ℚ) * (style.degrees / ((get_leaves t).length : ℚ)))) ∧
    (style.degrees = 360 → 1 < (get_leaves t).length →
      ((get_leaves (radial_calculate_layout style t).1).map
        (fun n => n.data.angle)).Nodup) := by
  have hmain : (get_leaves (radial_calculate_layout style t).1).map
      (fun n => n.data.angle) =
      (List.range (get_leaves t).length).map
        (fun k : ℕ => some ((k : ℚ) * (style.degrees / ((get_leaves t).length : ℚ)))) := by
    simp only [radial_calculate_layout]
    rw [get_leaves_write_internal_angles]
    rw [(write_leaf_angles_spec _ _ 0).2]
    rw [get_leaves_write_rad_length, get_leaves_write_dist_length]
    rw [Nat.max_eq_left (get_leaves_length_pos t)]
    apply List.map_congr_left
    intro k _
    congr 2
    push_cast
    ring
  refine ⟨hmain, ?_⟩
  intro hdeg hL
  rw [hmain, hdeg]
  apply List.Nodup.map ?_ (List.nodup_range _)
  intro a b hab
  simp only [Option.some.injEq] at hab
  have hL0 : (0 : ℚ) < ((get_leaves t).length : ℚ) := by
    exact_mod_cast Nat.lt_of_lt_of_le Nat.zero_lt_one hL.le
  have hs : (360 : ℚ) / ((get_leaves t).length : ℚ) ≠ 0 :=
    div_ne_zero (by norm_num) (ne_of_gt hL0)
  exact_mod_cast mul_right_cancel₀ hs hab

/-- C5 witness: the asymmetric example has three leaves, the default style
spans the full circle, and its laid-out leaf angles are pairwise
distinct. -/
theorem C5_leaf_angles_witness :
    ((get_leaves (radial_calculate_layout {} exAsym).1).map
      (fun n => n.data.angle)).Nodup :=
  (C5_leaf_angles {} exAsym).2 rfl (by decide)

/-! ## Attribute-assignment lemmas for the degenerate-tree claim -/

/-- The radius pass gives every node a `rad`. -/
theorem write_rad_rad_isSome (t : PNode) :
    ∀ sf, ∀ n ∈ preorder (write_rad sf t), (n.data.rad).isSome := by
  induction t using PNode.strongInduction with
  | h d cs ih =>
    intro sf n hn
    simp only [write_rad, write_rad_list_eq] at hn
    rw [preorder] at hn
    rcases List.mem_cons.mp hn with hroot | htail
    · subst hroot
      rfl
    · obtain ⟨c', hc', hn'⟩ := mem_preorder_list.mp htail
      obtain ⟨x, hx, hfx⟩ := List.mem_map.mp hc'
      subst hfx
      exact ih x hx sf n hn'

/-- The leaf-angle pass never clears a `rad`. -/
theorem write_leaf_angles_rad_pres (step : ℚ) (t : PNode) :
    ∀ i, (∀ n ∈ preorder t, (n.data.rad).isSome) →
      ∀ n ∈ preorder (write_leaf_angles step i t).2, (n.data.rad).isSome := by
  induction t using PNode.strongInduction with
  | h d cs ih =>
    intro i hall n hn
    cases cs with
    | nil =>
      simp only [write_leaf_angles, List.isEmpty_nil, if_true] at hn
      rw [preorder] at hn
      simp only [preorder_list, List.mem_singleton] at hn
      subst hn
      have h0 := hall (PNode.mk d []) (self_mem_preorder _)
      exact h0
    | cons c rest =>
      simp only [write_leaf_angles, List.isEmpty_cons, Bool.false_eq_true,
        if_false] at hn
      rw [preorder] at hn
      rcases List.mem_cons.mp hn with hroot | htail
      · subst hroot
        have h0 := hall (PNode.mk d (c :: rest)) (self_mem_preorder _)
        exact h0
      · obtain ⟨c₂, hc₂, hn'⟩ := mem_preorder_list.mp htail
        obtain ⟨c, hc, j, hj⟩ := mem_write_leaf_angles_list hc₂
        subst hj
        refine ih c hc j (fun m hm => hall m ?_) n hn'
        rw [preorder]
        exact List.mem_cons_of_mem _ (mem_preorder_list.mpr ⟨c, hc, hm⟩)

/-- Internal centering never clears a `rad`. -/
theorem write_internal_angles_rad_pres (t : PNode) :
    (∀ n ∈ preorder t, (n.data.rad).isSome) →
    ∀ n ∈ preorder (write_internal_angles t), (n.data.rad).isSome := by
  induction t using PNode.strongInduction with
  | h d cs ih =>
    intro hall n hn
    cases cs with
    | nil =>
      rw [write_internal_angles] at hn
      simp only [List.isEmpty_nil, if_true] at hn
      exact hall n hn
    | cons c rest =>
      simp only [write_internal_angles, write_internal_angles_list_eq,
        List.isEmpty_cons, Bool.false_eq_true, if_false] at hn
      rw [preorder] at hn
      rcases List.mem_cons.mp hn with hroot | htail
      · subst hroot
        have h0 := hall (PNode.mk d (c :: rest)) (self_mem_preorder _)
        exact h0
      · obtain ⟨c', hc', hn'⟩ := mem_preorder_list.mp htail
        obtain ⟨x, hx, hfx⟩ := List.mem_map.mp hc'
        subst hfx
        refine ih x hx (fun m hm => hall m ?_) n hn'
        rw [preorder]
        exact List.mem_cons_of_mem _ (mem_preorder_list.mpr ⟨x, hx, hm⟩)

/-- After the leaf-angle pass, every leaf carries an angle. -/
theorem write_leaf_angles_leaf_angle_isSome (step : ℚ) (u : PNode) (i : ℕ) :
    ∀ n ∈ get_leaves (write_leaf_angles step i u).2, (n.data.angle).isSome := by
  intro n hn
  have hmem : n.data.angle ∈
      (get_leaves (write_leaf_angles step i u).2).map (fun n => n.data.angle) :=
    List.mem_map_of_mem _ hn
  rw [(write_leaf_angles_spec step u i).2] at hmem
  obtain ⟨k, _, hk⟩ := List.mem_map.mp hmem
  rw [← hk]
  rfl

/-- If all leaves carry an angle, after internal centering every node
does. -/
theorem write_internal_angles_angle_isSome (t : PNode) :
    (∀ n ∈ get_leaves t, (n.data.angle).isSome) →
    ∀ n ∈ preorder (write_internal_angles t), (n.data.angle).isSome := by
  induction t using PNode.strongInduction with
  | h d cs ih =>
    intro hall n hn
    cases cs with
    | nil =>
      rw [write_internal_angles] at hn
      simp only [List.isEmpty_nil, if_true] at hn
      rw [preorder] at hn
      simp only [preorder_list, List.mem_singleton] at hn
      subst hn
      refine hall _ ?_
      rw [get_leaves]
      simp
    | cons c rest =>
      simp only [write_internal_angles, write_internal_angles_list_eq,
        List.isEmpty_cons, Bool.false_eq_true, if_false] at hn
      rw [preorder] at hn
      rcases List.mem_cons.mp hn with hroot | htail
      · subst hroot
        rfl
      · obtain ⟨c', hc', hn'⟩ := mem_preorder_list.mp htail
        obtain ⟨x, hx, hfx⟩ := List.mem_map.mp hc'
        subst hfx
        refine ih x hx (fun m hm => hall m ?_) n hn'
        rw [get_leaves]
        simp only [List.isEmpty_cons, Bool.false_eq_true, if_false]
        exact mem_get_leaves_list.mpr ⟨x, hx, hm⟩

/-- The vertical leaf pass preserves the length of a child list. -/
theorem write_leaf_y_list_length (sf root_x start_y y_step : ℚ) :
    ∀ (cs : List PNode) (i : ℕ),
      (write_leaf_y_list sf root_x start_y y_step i cs).2.length = cs.length := by
  intro cs
  induction cs with
  | nil => intro i; rfl
  | cons c rest ih =>
    intro i
    simp only [write_leaf_y_list, List.length_cons]
    rw [ih]

/-- After the vertical leaf pass, every leaf carries a `y_coord` and
`coordinates`. -/
theorem write_leaf_y_leaf_coords_isSome (t : PNode) :
    ∀ sf root_x start_y y_step (i : ℕ),
      ∀ n ∈ get_leaves (write_leaf_y sf root_x start_y y_step i t).2,
        (n.data.yCoord).isSome ∧ (n.data.coords).isSome := by
  induction t using PNode.strongInduction with
  | h d cs ih =>
    intro sf root_x start_y y_step i n hn
    cases cs with
    | nil =>
      simp only [write_leaf_y, List.isEmpty_nil, if_true] at hn
      rw [get_leaves] at hn
      simp only [List.isEmpty_nil, if_true, List.mem_singleton] at hn
      subst hn
      exact ⟨rfl, rfl⟩
    | cons c rest =>
      have hlen := write_leaf_y_list_length sf root_x start_y y_step (c :: rest) i
      simp only [write_leaf_y, List.isEmpty_cons, Bool.false_eq_true, if_false] at hn
      rw [get_leaves] at hn
      have hni : ((write_leaf_y_list sf root_x start_y y_step i (c :: rest)).2).isEmpty
          = false := by
        rcases hre : (write_leaf_y_list sf root_x start_y y_step i (c :: rest)).2
          with _ | ⟨x, xs⟩
        · rw [hre] at hlen
          simp at hlen
        · rfl
      rw [hni] at hn
      simp only [Bool.false_eq_true, if_false] at hn
      obtain ⟨c₂, hc₂, hn'⟩ := mem_get_leaves_list.mp hn
      obtain ⟨c', hc', j, hj⟩ := mem_write_leaf_y_list hc₂
      subst hj
      exact ih c' hc' sf root_x start_y y_step j n hn'

/-- If all leaves carry a `y_coord` and `coordinates`, after vertical
internal centering every node does. -/
theorem write_internal_y_coords_isSome (t : PNode) :
    ∀ sf root_x,
      (∀ n ∈ get_leaves t, (n.data.yCoord).isSome ∧ (n.data.coords).isSome) →
      ∀ n ∈ preorder (write_internal_y sf root_x t),
        (n.data.yCoord).isSome ∧ (n.data.coords).isSome := by
  induction t using PNode.strongInduction with
  | h d cs ih =>
    intro sf root_x hall n hn
    cases cs with
    | nil =>
      rw [write_internal_y] at hn
      simp only [List.isEmpty_nil, if_true] at hn
      rw [preorder] at hn
      simp only [preorder_list, List.mem_singleton] at hn
      subst hn
      refine hall _ ?_
      rw [get_leaves]
      simp
    | cons c rest =>
      simp only [write_internal_y, write_internal_y_list_eq,
        List.isEmpty_cons, Bool.false_eq_true, if_false] at hn
      rw [preorder] at hn
      rcases List.mem_cons.mp hn with hroot | htail
      · subst hroot
        exact ⟨rfl, rfl⟩
      · obtain ⟨c', hc', hn'⟩ := mem_preorder_list.mp htail
        obtain ⟨x, hx, hfx⟩ := List.mem_map.mp hc'
        subst hfx
        refine ih x hx sf root_x (fun m hm => hall m ?_) n hn'
        rw [get_leaves]
        simp only [List.isEmpty_cons, Bool.false_eq_true, if_false]
        exact mem_get_leaves_list.mpr ⟨x, hx, hm⟩

/-- C1 counterexample: on the single-node tree (max cumulative distance 0),
the legacy `drawing.py` layout — one of the two layout passes the claim
covers — computes scale factor `0`, not `1` (it still lays the node out:
the returned node has coordinates `(0, 0)` and no exception is raised,
modelled by the pass returning `some`). -/
theorem C1_counterexample :
    (legacy_calculate_coordinates {} exSingle).map (fun r => r.2.1) = some 0 ∧
    (0 : ℚ) ≠ 1 := by
  constructor
  · norm_num [legacy_calculate_coordinates, legacy_sf, write_dist_to_root,
      write_dist_to_root_list, max_dist, preorder, preorder_list, PNode.distToRootD,
      PNode.data, get_leaves, get_leaves_list, write_leaf_angles,
      write_leaf_angles_list, legacy_write_angles, legacy_write_angles_list,
      legacy_write_coordinates, legacy_write_coordinates_list, exSingle,
      List.foldl, max_def]
  · norm_num

/-- C1 (amended): on a tree whose maximum cumulative distance is 0, the
`drawing/` package layouts (radial and vertical) set the scale factor to
`1` instead of dividing by zero, and every node still receives a position
(both `rad` and `angle` are written by the radial layout; both `y_coord`
and `coordinates` are written by the vertical layout); the legacy
`drawing.py` layout instead sets its scale factor to `0` (also without
dividing by zero). -/
theorem C1_zero_depth_layout (style : TreeStyle) (t : PNode)
    (h : max_dist (write_dist_to_root none t) = 0) :
    (radial_calculate_layout style t).2.1 = 1 ∧
    (vertical_calculate_layout style none t).2.1 = 1 ∧
    legacy_sf style.radius (max_dist (write_dist_to_root none t)) = 0 ∧
    (∀ n ∈ preorder (radial_calculate_layout style t).1,
      (n.data.rad).isSome ∧ (n.data.angle).isSome) ∧
    (∀ n ∈ preorder (vertical_calculate_layout style none t).1,
      (n.data.yCoord).isSome ∧ (n.data.coords).isSome) := by
  refine ⟨?_, ?_, ?_, ?_, ?_⟩
  · simp only [radial_calculate_layout, h]
    norm_num
  · simp only [vertical_calculate_layout, h]
    norm_num
  · rw [legacy_sf, h]
    norm_num
  · intro n hn
    simp only [radial_calculate_layout] at hn
    constructor
    · refine write_internal_angles_rad_pres _ ?_ n hn
      exact write_leaf_angles_rad_pres _ _ _ (fun m hm => write_rad_rad_isSome _ _ m hm)
    · refine write_internal_angles_angle_isSome _ ?_ n hn
      exact write_leaf_angles_leaf_angle_isSome _ _ _
  · intro n hn
    simp only [vertical_calculate_layout] at hn
    refine write_internal_y_coords_isSome _ _ _ ?_ n hn
    intro m hm
    exact write_leaf_y_leaf_coords_isSome _ _ _ _ _ _ m hm

/-- C1 witness: the single-node tree has maximum cumulative distance 0 and
satisfies the amended statement with the default style. -/
theorem C1_zero_depth_layout_witness :
    (radial_calculate_layout {} exSingle).2.1 = 1 ∧
    (vertical_calculate_layout {} none exSingle).2.1 = 1 ∧
    legacy_sf ({} : TreeStyle).radius (max_dist (write_dist_to_root none exSingle)) = 0 ∧
    (∀ n ∈ preorder (radial_calculate_layout {} exSingle).1,
      (n.data.rad).isSome ∧ (n.data.angle).isSome) ∧
    (∀ n ∈ preorder (vertical_calculate_layout {} none exSingle).1,
      (n.data.yCoord).isSome ∧ (n.data.coords).isSome) :=
  C1_zero_depth_layout {} exSingle
    (by norm_num [write_dist_to_root, write_dist_to_root_list, max_dist, preorder,
      preorder_list, PNode.distToRootD, PNode.data, exSingle, List.foldl, max_def])

/-! ## Idempotence of the layout passes (re-layout fully overwrites) -/

/-- Pass 1 is idempotent: re-running the depth pass recomputes the same
`dist_to_root` from the unchanged `dist` fields. -/
theorem write_dist_idem (t : PNode) :
    ∀ p, write_dist_to_root p (write_dist_to_root p t) = write_dist_to_root p t := by
  induction t using PNode.strongInduction with
  | h d cs ih =>
    intro p
    simp only [write_dist_to_root, write_dist_to_root_list_eq, List.map_map]
    congr 1
    apply List.map_congr_left
    intro c hc
    simp only [Function.comp_apply]
    exact ih c hc _

/-- The radius pass is idempotent. -/
theorem write_rad_idem (t : PNode) :
    ∀ sf, write_rad sf (write_rad sf t) = write_rad sf t := by
  induction t using PNode.strongInduction with
  | h d cs ih =>
    intro sf
    simp only [write_rad, write_rad_list_eq, List.map_map]
    congr 1
    apply List.map_congr_left
    intro c hc
    simp only [Function.comp_apply]
    exact ih c hc _

/-- Internal centering is idempotent. -/
theorem write_internal_angles_idem (t : PNode) :
    write_internal_angles (write_internal_angles t) = write_internal_angles t := by
  induction t using PNode.strongInduction with
  | h d cs ih =>
    cases cs with
    | nil => rfl
    | cons c rest =>
      have hc1 : write_internal_angles (write_internal_angles c) =
          write_internal_angles c := ih c (by simp)
      have hrest : (rest.map write_internal_angles).map write_internal_angles =
          rest.map write_internal_angles := by
        rw [List.map_map]
        apply List.map_congr_left
        intro x hx
        simp only [Function.comp_apply]
        exact ih x (by simp [hx])
      simp only [write_internal_angles, write_internal_angles_list_eq,
        List.isEmpty_cons, Bool.false_eq_true, if_false, List.map_cons]
      rw [hc1, hrest]

/-- Vertical internal centering is idempotent. -/
theorem write_internal_y_idem (sf root_x : ℚ) (t : PNode) :
    write_internal_y sf root_x (write_internal_y sf root_x t) =
      write_internal_y sf root_x t := by
  induction t using PNode.strongInduction with
  | h d cs ih =>
    cases cs with
    | nil => rfl
    | cons c rest =>
      have hc1 : write_internal_y sf root_x (write_internal_y sf root_x c) =
          write_internal_y sf root_x c := ih c (by simp)
      have hrest : (rest.map (write_internal_y sf root_x)).map (write_internal_y sf root_x) =
          rest.map (write_internal_y sf root_x) := by
        rw [List.map_map]
        apply List.map_congr_left
        intro x hx
        simp only [Function.comp_apply]
        exact ih x (by simp [hx])
      simp only [write_internal_y, write_internal_y_list_eq,
        List.isEmpty_cons, Bool.false_eq_true, if_false, List.map_cons]
      rw [hc1, hrest]

theorem write_leaf_angles_list_length (step : ℚ) :
    ∀ (cs : List PNode) (i : ℕ),
      (write_leaf_angles_list step i cs).2.length = cs.length := by
  intro cs
  induction cs with
  | nil => intro i; rfl
  | cons c rest ih =>
    intro i
    simp only [write_leaf_angles_list, List.length_cons]
    rw [ih]

theorem write_leaf_angles_list_fix (step : ℚ) :
    ∀ (cs : List PNode),
      (∀ c ∈ cs, ∀ i, write_leaf_angles step i ((write_leaf_angles step i c).2) =
        write_leaf_angles step i c) →
      ∀ i, write_leaf_angles_list step i ((write_leaf_angles_list step i cs).2) =
        write_leaf_angles_list step i cs := by
  intro cs
  induction cs with
  | nil => intro _ i; rfl
  | cons c rest ih =>
    intro H i
    have hc := H c (by simp) i
    have hr := ih (fun x hx j => H x (by simp [hx]) j) (write_leaf_angles step i c).1
    simp only [write_leaf_angles_list]
    rw [hc, hr]

/-- The leaf-angle pass is idempotent (same step and start index). -/
theorem write_leaf_angles_fix (t : PNode) :
    ∀ step (i : ℕ), write_leaf_angles step i ((write_leaf_angles step i t).2) =
      write_leaf_angles step i t := by
  induction t using PNode.strongInduction with
  | h d cs ih =>
    intro step i
    cases cs with
    | nil => rfl
    | cons c rest =>
      have hlen := write_leaf_angles_list_length step (c :: rest) i
      have hfix := write_leaf_angles_list_fix step (c :: rest)
        (fun x hx j => ih x hx step j) i
      simp only [write_leaf_angles, List.isEmpty_cons, Bool.false_eq_true, if_false]
      have hni : ((write_leaf_angles_list step i (c :: rest)).2).isEmpty = false := by
        rcases hre : (write_leaf_angles_list step i (c :: rest)).2 with _ | ⟨x, xs⟩
        · rw [hre] at hlen
          simp at hlen
        · rfl
      rw [hni]
      simp only [Bool.false_eq_true, if_false]
      rw [hfix]

theorem write_leaf_y_list_fix (sf root_x start_y y_step : ℚ) :
    ∀ (cs : List PNode),
      (∀ c ∈ cs, ∀ i, write_leaf_y sf root_x start_y y_step i
          ((write_leaf_y sf root_x start_y y_step i c).2) =
        write_leaf_y sf root_x start_y y_step i c) →
      ∀ i, write_leaf_y_list sf root_x start_y y_step i
          ((write_leaf_y_list sf root_x start_y y_step i cs).2) =
        write_leaf_y_list sf root_x start_y y_step i cs := by
  intro cs
  induction cs with
  | nil => intro _ i; rfl
  | cons c rest ih =>
    intro H i
    have hc := H c (by simp) i
    have hr := ih (fun x hx j => H x (by simp [hx]) j)
      (write_leaf_y sf root_x start_y y_step i c).1
    simp only [write_leaf_y_list]
    rw [hc, hr]

/-- The vertical leaf pass is idempotent: the re-run recomputes the same
`y_coord` and `coordinates` from the unchanged index, `dist_to_root` and
parameters. -/
theorem write_leaf_y_fix (t : PNode) :
    ∀ sf root_x start_y y_step (i : ℕ),
      write_leaf_y sf root_x start_y y_step i
        ((write_leaf_y sf root_x start_y y_step i t).2) =
      write_leaf_y sf root_x start_y y_step i t := by
  induction t using PNode.strongInduction with
  | h d cs ih =>
    intro sf root_x start_y y_step i
    cases cs with
    | nil => rfl
    | cons c rest =>
      have hlen := write_leaf_y_list_length sf root_x start_y y_step (c :: rest) i
      have hfix := write_leaf_y_list_fix sf root_x start_y y_step (c :: rest)
        (fun x hx j => ih x hx sf root_x start_y y_step j) i
      simp only [write_leaf_y, List.isEmpty_cons, Bool.false_eq_true, if_false]
      have hni : ((write_leaf_y_list sf root_x start_y y_step i (c :: rest)).2).isEmpty
          = false := by
        rcases hre : (write_leaf_y_list sf root_x start_y y_step i (c :: rest)).2
          with _ | ⟨x, xs⟩
        · rw [hre] at hlen
          simp at hlen
        · rfl
      rw [hni]
      simp only [Bool.false_eq_true, if_false]
      rw [hfix]

theorem write_leaf_angles_list_fix_internal (step : ℚ) :
    ∀ (cs : List PNode),
      (∀ c ∈ cs, ∀ (i n : ℕ), write_leaf_angles step i c = (n, c) →
        write_leaf_angles step i (write_internal_angles c) =
          (n, write_internal_angles c)) →
      ∀ (i n : ℕ), write_leaf_angles_list step i cs = (n, cs) →
        write_leaf_angles_list step i (cs.map write_internal_angles) =
          (n, cs.map write_internal_angles) := by
  intro cs
  induction cs with
  | nil =>
    intro _ i n h
    simpa [write_leaf_angles_list] using h
  | cons c rest ih =>
    intro H i n h
    simp only [write_leaf_angles_list] at h
    have h1 : (write_leaf_angles step i c).2 = c ∧
        (write_leaf_angles_list step (write_leaf_angles step i c).1 rest).1 = n ∧
        (write_leaf_angles_list step (write_leaf_angles step i c).1 rest).2 = rest := by
      have hp := Prod.ext_iff.mp h
      have hl := List.cons.injEq _ _ _ _ ▸ hp.2
      exact ⟨(List.cons.inj hp.2).1, hp.1, (List.cons.inj hp.2).2⟩
    have hc : write_leaf_angles step i c = ((write_leaf_angles step i c).1, c) := by
      conv_lhs => rw [← Prod.mk.eta (p := write_leaf_angles step i c)]
      rw [h1.1]
    have hcA := H c (by simp) i (write_leaf_angles step i c).1 hc
    have hrr : write_leaf_angles_list step (write_leaf_angles step i c).1 rest =
        (n, rest) := by
      conv_lhs => rw [← Prod.mk.eta
        (p := write_leaf_angles_list step (write_leaf_angles step i c).1 rest)]
      rw [h1.2.1, h1.2.2]
    have hrA := ih (fun x hx j m hm => H x (by simp [hx]) j m hm)
      (write_leaf_angles step i c).1 n hrr
    simp only [List.map_cons, write_leaf_angles_list]
    rw [hcA]
    simp only []
    rw [hrA]

/-- An already-assigned leaf-angle state is unchanged when the pass re-runs
after internal centering (which never touches leaves). -/
theorem write_leaf_angles_fix_internal (t : PNode) :
    ∀ step (i n : ℕ), write_leaf_angles step i t = (n, t) →
      write_leaf_angles step i (write_internal_angles t) =
        (n, write_internal_angles t) := by
  induction t using PNode.strongInduction with
  | h d cs ih =>
    intro step i n h
    cases cs with
    | nil => simpa [write_internal_angles] using h
    | cons c rest =>
      simp only [write_leaf_angles, List.isEmpty_cons, Bool.false_eq_true,
        if_false] at h
      have hp := Prod.ext_iff.mp h
      have hfst : (write_leaf_angles_list step i (c :: rest)).1 = n := hp.1
      have hsnd : (write_leaf_angles_list step i (c :: rest)).2 = c :: rest := by
        have := hp.2
        simpa [PNode.mk.injEq] using this
      have hll : write_leaf_angles_list step i (c :: rest) = (n, c :: rest) := by
        conv_lhs => rw [← Prod.mk.eta (p := write_leaf_angles_list step i (c :: rest))]
        rw [hfst, hsnd]
      have hllA := write_leaf_angles_list_fix_internal step (c :: rest)
        (fun x hx j m hm => ih x hx step j m hm) i n hll
      simp only [write_internal_angles, write_internal_angles_list_eq,
        List.isEmpty_cons, Bool.false_eq_true, if_false]
      simp only [write_leaf_angles, List.map_cons, List.isEmpty_cons,
        Bool.false_eq_true, if_false]
      simp only [List.map_cons] at hllA
      rw [hllA]

theorem write_leaf_y_list_fix_internal (sf root_x start_y y_step : ℚ) :
    ∀ (cs : List PNode),
      (∀ c ∈ cs, ∀ (i n : ℕ),
        write_leaf_y sf root_x start_y y_step i c = (n, c) →
        write_leaf_y sf root_x start_y y_step i (write_internal_y sf root_x c) =
          (n, write_internal_y sf root_x c)) →
      ∀ (i n : ℕ), write_leaf_y_list sf root_x start_y y_step i cs = (n, cs) →
        write_leaf_y_list sf root_x start_y y_step i
            (cs.map (write_internal_y sf root_x)) =
          (n, cs.map (write_internal_y sf root_x)) := by
  intro cs
  induction cs with
  | nil =>
    intro _ i n h
    simpa [write_leaf_y_list] using h
  | cons c rest ih =>
    intro H i n h
    simp only [write_leaf_y_list] at h
    have hp := Prod.ext_iff.mp h
    have h1 : (write_leaf_y sf root_x start_y y_step i c).2 = c ∧
        (write_leaf_y_list sf root_x start_y y_step
          (write_leaf_y sf root_x start_y y_step i c).1 rest).2 = rest :=
      ⟨(List.cons.inj hp.2).1, (List.cons.inj hp.2).2⟩
    have hc : write_leaf_y sf root_x start_y y_step i c =
        ((write_leaf_y sf root_x start_y y_step i c).1, c) := by
      conv_lhs => rw [← Prod.mk.eta (p := write_leaf_y sf root_x start_y y_step i c)]
      rw [h1.1]
    have hcA := H c (by simp) i (write_leaf_y sf root_x start_y y_step i c).1 hc
    have hrr : write_leaf_y_list sf root_x start_y y_step
        (write_leaf_y sf root_x start_y y_step i c).1 rest = (n, rest) := by
      conv_lhs => rw [← Prod.mk.eta (p := write_leaf_y_list sf root_x start_y y_step
        (write_leaf_y sf root_x start_y y_step i c).1 rest)]
      rw [hp.1, h1.2]
    have hrA := ih (fun x hx j m hm => H x (by simp [hx]) j m hm)
      (write_leaf_y sf root_x start_y y_step i c).1 n hrr
    simp only [List.map_cons, write_leaf_y_list]
    rw [hcA]
    simp only []
    rw [hrA]

theorem write_leaf_y_fix_internal (t : PNode) :
    ∀ sf root_x start_y y_step (i n : ℕ),
      write_leaf_y sf root_x start_y y_step i t = (n, t) →
      write_leaf_y sf root_x start_y y_step i (write_internal_y sf root_x t) =
        (n, write_internal_y sf root_x t) := by
  induction t using PNode.strongInduction with
  | h d cs ih =>
    intro sf root_x start_y y_step i n h
    cases cs with
    | nil => simpa [write_internal_y] using h
    | cons c rest =>
      simp only [write_leaf_y, List.isEmpty_cons, Bool.false_eq_true,
        if_false] at h
      have hp := Prod.ext_iff.mp h
      have hsnd : (write_leaf_y_list sf root_x start_y y_step i (c :: rest)).2 =
          c :: rest := by
        have := hp.2
        simpa [PNode.mk.injEq] using this
      have hll : write_leaf_y_list sf root_x start_y y_step i (c :: rest) =
          (n, c :: rest) := by
        conv_lhs => rw [← Prod.mk.eta
          (p := write_leaf_y_list sf root_x start_y y_step i (c :: rest))]
        rw [hp.1, hsnd]
      have hllA := write_leaf_y_list_fix_internal sf root_x start_y y_step (c :: rest)
        (fun x hx j m hm => ih x hx sf root_x start_y y_step j m hm) i n hll
      simp only [write_internal_y, write_internal_y_list_eq,
        List.isEmpty_cons, Bool.false_eq_true, if_false]
      simp only [write_leaf_y, List.map_cons, List.isEmpty_cons,
        Bool.false_eq_true, if_false]
      simp only [List.map_cons] at hllA
      rw [hllA]

/-- A `dist_to_root`-correct tree stays so through the radius pass. -/
theorem write_dist_fix_rad (t : PNode) :
    ∀ p sf, write_dist_to_root p t = t →
      write_dist_to_root p (write_rad sf t) = write_rad sf t := by
  induction t using PNode.strongInduction with
  | h d cs ih =>
    intro p sf h
    obtain ⟨nm, di, tf, dtr, ra, an, yc, co⟩ := d
    simp only [write_dist_to_root, write_dist_to_root_list_eq, PNode.mk.injEq,
      NData.mk.injEq, true_and, and_true] at h
    obtain ⟨hd, hcs⟩ := h
    simp only [write_rad, write_rad_list_eq, write_dist_to_root,
      write_dist_to_root_list_eq, List.map_map, PNode.mk.injEq, NData.mk.injEq,
      true_and, and_true]
    refine ⟨hd, ?_⟩
    apply List.map_congr_left
    intro c hc
    simp only [Function.comp_apply]
    exact ih c hc _ sf (map_fix_iff.mp hcs c hc)

/-- A `dist_to_root`-correct tree stays so through the leaf-angle pass. -/
theorem write_dist_fix_leaf_angles (t : PNode) :
    ∀ p step (i : ℕ), write_dist_to_root p t = t →
      write_dist_to_root p ((write_leaf_angles step i t).2) =
        (write_leaf_angles step i t).2 := by
  induction t using PNode.strongInduction with
  | h d cs ih =>
    intro p step i h
    obtain ⟨nm, di, tf, dtr, ra, an, yc, co⟩ := d
    simp only [write_dist_to_root, write_dist_to_root_list_eq, PNode.mk.injEq,
      NData.mk.injEq, true_and, and_true] at h
    obtain ⟨hd, hcs⟩ := h
    cases cs with
    | nil =>
      simp only [write_leaf_angles, List.isEmpty_nil, if_true]
      simp only [write_dist_to_root, write_dist_to_root_list_eq, List.map_nil,
        PNode.mk.injEq, NData.mk.injEq, true_and, and_true]
      exact hd
    | cons c rest =>
      simp only [write_leaf_angles, List.isEmpty_cons, Bool.false_eq_true, if_false]
      simp only [write_dist_to_root, write_dist_to_root_list_eq, PNode.mk.injEq,
        NData.mk.injEq, true_and, and_true]
      refine ⟨hd, ?_⟩
      rw [map_fix_iff]
      intro c₂ hc₂
      obtain ⟨c, hc, j, hj⟩ := mem_write_leaf_angles_list hc₂
      subst hj
      exact ih c hc _ step j (map_fix_iff.mp hcs c hc)

/-- A `dist_to_root`-correct tree stays so through internal centering. -/
theorem write_dist_fix_internal (t : PNode) :
    ∀ p, write_dist_to_root p t = t →
      write_dist_to_root p (write_internal_angles t) = write_internal_angles t := by
  induction t using PNode.strongInduction with
  | h d cs ih =>
    intro p h
    obtain ⟨nm, di, tf, dtr, ra, an, yc, co⟩ := d
    simp only [write_dist_to_root, write_dist_to_root_list_eq, PNode.mk.injEq,
      NData.mk.injEq, true_and, and_true] at h
    obtain ⟨hd, hcs⟩ := h
    cases cs with
    | nil =>
      simp only [write_internal_angles, List.isEmpty_nil, if_true]
      simp only [write_dist_to_root, write_dist_to_root_list_eq, List.map_nil,
        PNode.mk.injEq, NData.mk.injEq, true_and, and_true]
      exact hd
    | cons c rest =>
      simp only [write_internal_angles, write_internal_angles_list_eq,
        List.isEmpty_cons, Bool.false_eq_true, if_false]
      simp only [write_dist_to_root, write_dist_to_root_list_eq, List.map_map,
        PNode.mk.injEq, NData.mk.injEq, true_and, and_true]
      refine ⟨hd, ?_⟩
      apply List.map_congr_left
      intro x hx
      simp only [Function.comp_apply]
      exact ih x hx _ (map_fix_iff.mp hcs x hx)

/-- A `rad`-correct tree stays so through the leaf-angle pass. -/
theorem write_rad_fix_leaf_angles (t : PNode) :
    ∀ sf step (i : ℕ), write_rad sf t = t →
      write_rad sf ((write_leaf_angles step i t).2) =
        (write_leaf_angles step i t).2 := by
  induction t using PNode.strongInduction with
  | h d cs ih =>
    intro sf step i h
    obtain ⟨nm, di, tf, dtr, ra, an, yc, co⟩ := d
    simp only [write_rad, write_rad_list_eq, PNode.mk.injEq,
      NData.mk.injEq, true_and, and_true] at h
    obtain ⟨hd, hcs⟩ := h
    cases cs with
    | nil =>
      simp only [write_leaf_angles, List.isEmpty_nil, if_true]
      simp only [write_rad, write_rad_list_eq, List.map_nil,
        PNode.mk.injEq, NData.mk.injEq, true_and, and_true]
      exact hd
    | cons c rest =>
      simp only [write_leaf_angles, List.isEmpty_cons, Bool.false_eq_true, if_false]
      simp only [write_rad, write_rad_list_eq, PNode.mk.injEq,
        NData.mk.injEq, true_and, and_true]
      refine ⟨hd, ?_⟩
      rw [map_fix_iff]
      intro c₂ hc₂
      obtain ⟨c, hc, j, hj⟩ := mem_write_leaf_angles_list hc₂
      subst hj
      exact ih c hc sf step j (map_fix_iff.mp hcs c hc)

/-- A `rad`-correct tree stays so through internal centering. -/
theorem write_rad_fix_internal (t : PNode) :
    ∀ sf, write_rad sf t = t →
      write_rad sf (write_internal_angles t) = write_internal_angles t := by
  induction t using PNode.strongInduction with
  | h d cs ih =>
    intro sf h
    obtain ⟨nm, di, tf, dtr, ra, an, yc, co⟩ := d
    simp only [write_rad, write_rad_list_eq, PNode.mk.injEq,
      NData.mk.injEq, true_and, and_true] at h
    obtain ⟨hd, hcs⟩ := h
    cases cs with
    | nil =>
      simp only [write_internal_angles, List.isEmpty_nil, if_true]
      simp only [write_rad, write_rad_list_eq, List.map_nil,
        PNode.mk.injEq, NData.mk.injEq, true_and, and_true]
      exact hd
    | cons c rest =>
      simp only [write_internal_angles, write_internal_angles_list_eq,
        List.isEmpty_cons, Bool.false_eq_true, if_false]
      simp only [write_rad, write_rad_list_eq, List.map_map,
        PNode.mk.injEq, NData.mk.injEq, true_and, and_true]
      refine ⟨hd, ?_⟩
      apply List.map_congr_left
      intro x hx
      simp only [Function.comp_apply]
      exact ih x hx sf (map_fix_iff.mp hcs x hx)

/-! ## Field-map invariance (the later passes never alter `dist_to_root`) -/

theorem preorder_list_map_field {α : Type} (φ : PNode → α) (f : PNode → PNode) :
    ∀ cs : List PNode,
      (∀ c ∈ cs, (preorder (f c)).map φ = (preorder c).map φ) →
      (preorder_list (cs.map f)).map φ = (preorder_list cs).map φ := by
  intro cs
  induction cs with
  | nil => intro _; rfl
  | cons c rest ih =>
    intro h
    simp only [List.map_cons, preorder_list, List.map_append]
    rw [h c (by simp), ih (fun x hx => h x (by simp [hx]))]

theorem preorder_list_map_field_leaf_angles {α : Type} (φ : PNode → α) (step : ℚ) :
    ∀ cs : List PNode,
      (∀ c ∈ cs, ∀ j : ℕ,
        (preorder ((write_leaf_angles step j c).2)).map φ = (preorder c).map φ) →
      ∀ i : ℕ, (preorder_list ((write_leaf_angles_list step i cs).2)).map φ =
        (preorder_list cs).map φ := by
  intro cs
  induction cs with
  | nil => intro _ i; rfl
  | cons c rest ih =>
    intro h i
    simp only [write_leaf_angles_list, preorder_list, List.map_append]
    rw [h c (by simp), ih (fun x hx => h x (by simp [hx]))]

theorem preorder_list_map_field_leaf_y {α : Type} (φ : PNode → α)
    (sf root_x start_y y_step : ℚ) :
    ∀ cs : List PNode,
      (∀ c ∈ cs, ∀ j : ℕ,
        (preorder ((write_leaf_y sf root_x start_y y_step j c).2)).map φ =
          (preorder c).map φ) →
      ∀ i : ℕ, (preorder_list ((write_leaf_y_list sf root_x start_y y_step i cs).2)).map φ =
        (preorder_list cs).map φ := by
  intro cs
  induction cs with
  | nil => intro _ i; rfl
  | cons c rest ih =>
    intro h i
    simp only [write_leaf_y_list, preorder_list, List.map_append]
    rw [h c (by simp), ih (fun x hx => h x (by simp [hx]))]

theorem dtr_map_write_rad (t : PNode) :
    ∀ sf, (preorder (write_rad sf t)).map PNode.distToRootD =
      (preorder t).map PNode.distToRootD := by
  induction t using PNode.strongInduction with
  | h d cs ih =>
    intro sf
    simp only [write_rad, write_rad_list_eq, preorder, List.map_cons]
    rw [preorder_list_map_field _ _ cs (fun c hc => ih c hc sf)]
    rfl

theorem dtr_map_write_leaf_angles (t : PNode) :
    ∀ step (i : ℕ),
      (preorder ((write_leaf_angles step i t).2)).map PNode.distToRootD =
      (preorder t).map PNode.distToRootD := by
  induction t using PNode.strongInduction with
  | h d cs ih =>
    intro step i
    cases cs with
    | nil => rfl
    | cons c rest =>
      simp only [write_leaf_angles, List.isEmpty_cons, Bool.false_eq_true, if_false]
      simp only [preorder, List.map_cons]
      rw [preorder_list_map_field_leaf_angles _ step (c :: rest)
        (fun x hx j => ih x hx step j) i]
      rfl

theorem dtr_map_write_internal_angles (t : PNode) :
    (preorder (write_internal_angles t)).map PNode.distToRootD =
      (preorder t).map PNode.distToRootD := by
  induction t using PNode.strongInduction with
  | h d cs ih =>
    cases cs with
    | nil => rfl
    | cons c rest =>
      simp only [write_internal_angles, write_internal_angles_list_eq,
        List.isEmpty_cons, Bool.false_eq_true, if_false]
      have hh := preorder_list_map_field PNode.distToRootD write_internal_angles
        (c :: rest) (fun x hx => ih x hx)
      simp only [List.map_cons] at hh
      simp only [preorder, List.map_cons]
      rw [hh]
      rfl

theorem dtr_map_write_leaf_y (t : PNode) :
    ∀ sf root_x start_y y_step (i : ℕ),
      (preorder ((write_leaf_y sf root_x start_y y_step i t).2)).map PNode.distToRootD =
      (preorder t).map PNode.distToRootD := by
  induction t using PNode.strongInduction with
  | h d cs ih =>
    intro sf root_x start_y y_step i
    cases cs with
    | nil => rfl
    | cons c rest =>
      simp only [write_leaf_y, List.isEmpty_cons, Bool.false_eq_true, if_false]
      simp only [preorder, List.map_cons]
      rw [preorder_list_map_field_leaf_y _ sf root_x start_y y_step (c :: rest)
        (fun x hx j => ih x hx sf root_x start_y y_step j) i]
      rfl

theorem dtr_map_write_internal_y (sf root_x : ℚ) (t : PNode) :
    (preorder (write_internal_y sf root_x t)).map PNode.distToRootD =
      (preorder t).map PNode.distToRootD := by
  induction t using PNode.strongInduction with
  | h d cs ih =>
    cases cs with
    | nil => rfl
    | cons c rest =>
      simp only [write_internal_y, write_internal_y_list_eq,
        List.isEmpty_cons, Bool.false_eq_true, if_false]
      have hh := preorder_list_map_field PNode.distToRootD (write_internal_y sf root_x)
        (c :: rest) (fun x hx => ih x hx)
      simp only [List.map_cons] at hh
      simp only [preorder, List.map_cons]
      rw [hh]
      rfl

/-- The leaf-angle pass preserves the number of leaves. -/
theorem get_leaves_write_leaf_angles_length (step : ℚ) (t : PNode) (i : ℕ) :
    (get_leaves (write_leaf_angles step i t).2).length = (get_leaves t).length := by
  have h := congrArg List.length (write_leaf_angles_spec step t i).2
  simpa using h

theorem get_leaves_list_write_leaf_y_length (sf root_x start_y y_step : ℚ) :
    ∀ cs : List PNode,
      (∀ c ∈ cs, ∀ j : ℕ,
        (get_leaves (write_leaf_y sf root_x start_y y_step j c).2).length =
          (get_leaves c).length) →
      ∀ i : ℕ,
        (get_leaves_list ((write_leaf_y_list sf root_x start_y y_step i cs).2)).length =
          (get_leaves_list cs).length := by
  intro cs
  induction cs with
  | nil => intro _ i; rfl
  | cons c rest ih =>
    intro h i
    simp only [write_leaf_y_list, get_leaves_list, List.length_append]
    rw [h c (by simp), ih (fun x hx => h x (by simp [hx]))]

/-- The vertical leaf pass preserves the number of leaves. -/
theorem get_leaves_write_leaf_y_length (t : PNode) :
    ∀ sf root_x start_y y_step (i : ℕ),
      (get_leaves (write_leaf_y sf root_x start_y y_step i t).2).length =
        (get_leaves t).length := by
  induction t using PNode.strongInduction with
  | h d cs ih =>
    intro sf root_x start_y y_step i
    cases cs with
    | nil => rfl
    | cons c rest =>
      have hlen := write_leaf_y_list_length sf root_x start_y y_step (c :: rest) i
      simp only [write_leaf_y, List.isEmpty_cons, Bool.false_eq_true, if_false]
      rw [get_leaves, get_leaves]
      simp only [List.isEmpty_cons, Bool.false_eq_true, if_false]
      have hni : ((write_leaf_y_list sf root_x start_y y_step i (c :: rest)).2).isEmpty
          = false := by
        rcases hre : (write_leaf_y_list sf root_x start_y y_step i (c :: rest)).2
          with _ | ⟨x, xs⟩
        · rw [hre] at hlen
          simp at hlen
        · rfl
      rw [hni]
      simp only [Bool.false_eq_true, if_false]
      exact get_leaves_list_write_leaf_y_length sf root_x start_y y_step (c :: rest)
        (fun x hx j => ih x hx sf root_x start_y y_step j) i

/-- A `dist_to_root`-correct tree stays so through the vertical leaf pass. -/
theorem write_dist_fix_leaf_y (t : PNode) :
    ∀ p sf root_x start_y y_step (i : ℕ), write_dist_to_root p t = t →
      write_dist_to_root p ((write_leaf_y sf root_x start_y y_step i t).2) =
        (write_leaf_y sf root_x start_y y_step i t).2 := by
  induction t using PNode.strongInduction with
  | h d cs ih =>
    intro p sf root_x start_y y_step i h
    obtain ⟨nm, di, tf, dtr, ra, an, yc, co⟩ := d
    simp only [write_dist_to_root, write_dist_to_root_list_eq, PNode.mk.injEq,
      NData.mk.injEq, true_and, and_true] at h
    obtain ⟨hd, hcs⟩ := h
    cases cs with
    | nil =>
      simp only [write_leaf_y, List.isEmpty_nil, if_true]
      simp only [write_dist_to_root, write_dist_to_root_list_eq, List.map_nil,
        PNode.mk.injEq, NData.mk.injEq, true_and, and_true]
      exact hd
    | cons c rest =>
      simp only [write_leaf_y, List.isEmpty_cons, Bool.false_eq_true, if_false]
      simp only [write_dist_to_root, write_dist_to_root_list_eq, PNode.mk.injEq,
        NData.mk.injEq, true_and, and_true]
      refine ⟨hd, ?_⟩
      rw [map_fix_iff]
      intro c₂ hc₂
      obtain ⟨c, hc, j, hj⟩ := mem_write_leaf_y_list hc₂
      subst hj
      exact ih c hc _ sf root_x start_y y_step j (map_fix_iff.mp hcs c hc)

/-- A `dist_to_root`-correct tree stays so through vertical internal
centering. -/
theorem write_dist_fix_internal_y (t : PNode) :
    ∀ p sf root_x, write_dist_to_root p t = t →
      write_dist_to_root p (write_internal_y sf root_x t) =
        write_internal_y sf root_x t := by
  induction t using PNode.strongInduction with
  | h d cs ih =>
    intro p sf root_x h
    obtain ⟨nm, di, tf, dtr, ra, an, yc, co⟩ := d
    simp only [write_dist_to_root, write_dist_to_root_list_eq, PNode.mk.injEq,
      NData.mk.injEq, true_and, and_true] at h
    obtain ⟨hd, hcs⟩ := h
    cases cs with
    | nil =>
      simp only [write_internal_y, List.isEmpty_nil, if_true]
      simp only [write_dist_to_root, write_dist_to_root_list_eq, List.map_nil,
        PNode.mk.injEq, NData.mk.injEq, true_and, and_true]
      exact hd
    | cons c rest =>
      simp only [write_internal_y, write_internal_y_list_eq,
        List.isEmpty_cons, Bool.false_eq_true, if_false]
      simp only [write_dist_to_root, write_dist_to_root_list_eq, List.map_map,
        PNode.mk.injEq, NData.mk.injEq, true_and, and_true]
      refine ⟨hd, ?_⟩
      apply List.map_congr_left
      intro x hx
      simp only [Function.comp_apply]
      exact ih x hx _ sf root_x (map_fix_iff.mp hcs x hx)

/-- Running the radial layout on an already-laid-out tree reproduces the
tree, the scale factor and the total depth exactly: every pass recomputes
its fields from the unchanged static data and overwrites them with the
same values. -/
theorem radial_relayout (style : TreeStyle) (t : PNode) :
    radial_calculate_layout style (radial_calculate_layout style t).1 =
      radial_calculate_layout style t := by
  set u1 := write_dist_to_root none t with hu1
  set md := max_dist u1 with hmd
  set sf := if md > 0 then style.radius / md else 1 with hsf
  set u2 := write_rad sf u1 with hu2
  set N := (get_leaves u2).length with hN
  set step := style.degrees / ((max N 1 : ℕ) : ℚ) with hstep
  set u3 := (write_leaf_angles step 0 u2).2 with hu3
  set u4 := write_internal_angles u3 with hu4
  have hfirst : radial_calculate_layout style t = (u4, sf, md) := rfl
  have hD1 : write_dist_to_root none u1 = u1 := write_dist_idem t none
  have hD2 : write_dist_to_root none u2 = u2 := write_dist_fix_rad u1 none sf hD1
  have hD3 : write_dist_to_root none u3 = u3 :=
    write_dist_fix_leaf_angles u2 none step 0 hD2
  have hD4 : write_dist_to_root none u4 = u4 := write_dist_fix_internal u3 none hD3
  have hR2 : write_rad sf u2 = u2 := write_rad_idem u1 sf
  have hR3 : write_rad sf u3 = u3 := write_rad_fix_leaf_angles u2 sf step 0 hR2
  have hR4 : write_rad sf u4 = u4 := write_rad_fix_internal u3 sf hR3
  have hL3 : write_leaf_angles step 0 u3 = ((write_leaf_angles step 0 u2).1, u3) := by
    rw [write_leaf_angles_fix u2 step 0, hu3]
  have hL4 : write_leaf_angles step 0 u4 = ((write_leaf_angles step 0 u2).1, u4) := by
    rw [hu4]
    exact write_leaf_angles_fix_internal u3 step 0 (write_leaf_angles step 0 u2).1 hL3
  have hL4' : (write_leaf_angles step 0 u4).2 = u4 := by rw [hL4]
  have hA4 : write_internal_angles u4 = u4 := by
    rw [hu4]
    exact write_internal_angles_idem u3
  have hmd4 : max_dist u4 = md := by
    have h1 : (preorder u4).map PNode.distToRootD =
        (preorder u1).map PNode.distToRootD := by
      rw [hu4, dtr_map_write_internal_angles, hu3, dtr_map_write_leaf_angles, hu2,
        dtr_map_write_rad]
    rw [max_dist, h1, hmd, max_dist]
  have hN4 : (get_leaves u4).length = N := by
    rw [hu4, get_leaves_write_internal_angles, hu3,
      get_leaves_write_leaf_angles_length, hN]
  rw [hfirst]
  show radial_calculate_layout style u4 = (u4, sf, md)
  simp only [radial_calculate_layout]
  rw [hD4, hmd4, ← hsf, hR4, hN4, ← hstep, hL4', hA4]

/-- Running the vertical layout on an already-laid-out tree reproduces the
tree, scale factor, root x and total depth exactly. -/
theorem vertical_relayout (style : TreeStyle) (t : PNode) :
    vertical_calculate_layout style none (vertical_calculate_layout style none t).1 =
      vertical_calculate_layout style none t := by
  set u1 := write_dist_to_root none t with hu1
  set md := max_dist u1 with hmd
  set sf := if md > 0 then
      ((none : Option ℚ).getD style.width - style.margin * 2) / md else 1 with hsf
  set root_x := -style.width / 2 + style.margin with hroot
  set N := (get_leaves u1).length with hN
  set y_step := (style.height - style.margin * 2) / ((max (N - 1) 1 : ℕ) : ℚ)
    with hystep
  set start_y := -style.height / 2 + style.margin with hstart
  set u2 := (write_leaf_y sf root_x start_y y_step 0 u1).2 with hu2
  set u3 := write_internal_y sf root_x u2 with hu3
  have hfirst : vertical_calculate_layout style none t = (u3, sf, root_x, md) := rfl
  have hD1 : write_dist_to_root none u1 = u1 := write_dist_idem t none
  have hD2 : write_dist_to_root none u2 = u2 :=
    write_dist_fix_leaf_y u1 none sf root_x start_y y_step 0 hD1
  have hD3 : write_dist_to_root none u3 = u3 :=
    write_dist_fix_internal_y u2 none sf root_x hD2
  have hmd3 : max_dist u3 = md := by
    have h1 : (preorder u3).map PNode.distToRootD =
        (preorder u1).map PNode.distToRootD := by
      rw [hu3, dtr_map_write_internal_y, hu2, dtr_map_write_leaf_y]
    rw [max_dist, h1, hmd, max_dist]
  have hN3 : (get_leaves u3).length = N := by
    rw [hu3, get_leaves_write_internal_y, hu2, get_leaves_write_leaf_y_length, hN]
  have hLy2 : write_leaf_y sf root_x start_y y_step 0 u2 =
      ((write_leaf_y sf root_x start_y y_step 0 u1).1, u2) := by
    rw [write_leaf_y_fix u1 sf root_x start_y y_step 0, hu2]
  have hLy3 : write_leaf_y sf root_x start_y y_step 0 u3 =
      ((write_leaf_y sf root_x start_y y_step 0 u1).1, u3) := by
    rw [hu3]
    exact write_leaf_y_fix_internal u2 sf root_x start_y y_step 0
      (write_leaf_y sf root_x start_y y_step 0 u1).1 hLy2
  have hLy3' : (write_leaf_y sf root_x start_y y_step 0 u3).2 = u3 := by rw [hLy3]
  have hIy3 : write_internal_y sf root_x u3 = u3 := by
    rw [hu3]
    exact write_internal_y_idem sf root_x u2
  rw [hfirst]
  show vertical_calculate_layout style none u3 = (u3, sf, root_x, md)
  simp only [vertical_calculate_layout]
  rw [hD3, hmd3, ← hsf, ← hroot, hN3, ← hystep, ← hstart, hLy3', hIy3]

/-- C9: running a layout pass twice on the same tree with an identical
style yields identical coordinates, scale factor and cumulative distances
for every node — the second pass fully overwrites every derived field
(`dist_to_root`, `rad`/`angle`, `y_coord`/`coordinates`) with the values
recomputed from the unchanged static fields, in both projections. -/
theorem C9_layout_idempotent (style : TreeStyle) (t : PNode) :
    radial_calculate_layout style (radial_calculate_layout style t).1 =
      radial_calculate_layout style t ∧
    vertical_calculate_layout style none (vertical_calculate_layout style none t).1 =
      vertical_calculate_layout style none t :=
  ⟨radial_relayout style t, vertical_relayout style t⟩

end Phylustrator
